import Mathlib

/-
Shallow embedding of ec_protect.c (s3backer 1.1.0), the eventual-consistency
protection shim.  Per-block records live in a hash table (modelled as a keyed
list) and, while WRITTEN, also in a timestamp-ordered expiry list.  Times are
milliseconds since the epoch as Nat; the uint64 subtraction in
ec_protect_sleep_until is modelled with an explicit mod 2^64.  Memory
allocation is modelled as always succeeding; the mutex-held critical sections
of the C code become atomic steps here.
-/

namespace ECProtect

/-- Bytes of a block payload, one Nat per u_char. -/
abbrev Block := List Nat

/-- A 16-byte MD5 digest, one Nat per u_char (MD5_DIGEST_LENGTH = 16). -/
abbrev Digest := List Nat

/-- The fields of struct ec_protect_conf that the core consults; the logging
callback is not modelled. -/
structure Config where
  blockSize : Nat
  cacheSize : Nat
  cacheTime : Nat
  minWriteDelay : Nat
deriving DecidableEq

/-- The union inside struct block_info: either the in-flight write's source
buffer (u.data, a NULL pointer represented as none) or the content MD5
(u.md5). -/
inductive Payload where
  | data (src : Option Block)
  | md5 (fp : Digest)
deriving DecidableEq

/-- Reading u.data from the union (meaningful when timestamp == 0).  On a
md5 payload this would be C union type-punning; we return none, a case
unreachable in coherent states. -/
def Payload.getData : Payload → Option Block
  | .data s => s
  | .md5 _ => none

/-- Reading u.md5 from the union (meaningful when timestamp != 0); the
data case is union type-punning, unreachable in coherent states. -/
def Payload.getMd5 : Payload → Digest
  | .md5 fp => fp
  | .data _ => []

/-- The struct block_info record: block number, PUT/DELETE completion
timestamp (0 while WRITING) and the payload union.  The TAILQ link is
represented by membership of the record in the state's expiry list. -/
structure BlockInfo where
  blockNum : Nat
  timestamp : Nat
  payload : Payload
deriving DecidableEq

/-- The mutable fields of struct ec_protect_private: the hash table (as a
keyed list of records), the TAILQ expiry list and the statistics counters. -/
structure ECState where
  table : List BlockInfo
  list : List BlockInfo
  cacheDataHits : Nat
  cacheFullDelay : Nat
  repeatedWriteDelay : Nat
  outOfMemoryErrors : Nat
deriving DecidableEq

/-- The g_hash_table_lookup of ec_protect_hash_get: first record whose key
matches (a GHashTable holds at most one entry per key). -/
def hashGet : List BlockInfo → Nat → Option BlockInfo
  | [], _ => none
  | bi :: rest, bn => if bi.blockNum = bn then some bi else hashGet rest bn

/-- The ec_protect_hash_put insertion; only ever called for a key absent
from the table (the NDEBUG assert checks the size grew). -/
def hashPut (tbl : List BlockInfo) (bi : BlockInfo) : List BlockInfo := bi :: tbl

/-- The g_hash_table_remove of ec_protect_hash_remove: drops the (unique)
entry with the given key. -/
def hashRemove : List BlockInfo → Nat → List BlockInfo
  | [], _ => []
  | bi :: rest, bn => if bi.blockNum = bn then rest else bi :: hashRemove rest bn

/-- The static zero_md5 constant: 16 zero bytes, the sentinel fingerprint of
an all-zeroes block. -/
def zero_md5 : Digest := List.replicate 16 0

/-- The lazily allocated priv->zero_block scratch buffer: block_size zero
bytes (allocation is modelled as succeeding). -/
def zeroBlock (cfg : Config) : Block := List.replicate cfg.blockSize 0

/-- Lines 325-337 of ec_protect_write_block: canonicalize a NULL or
all-zeroes source to (NULL, zero_md5), and otherwise compute the MD5 of the
first block_size bytes of src when the caller supplied none.  Returns the
effective (src, md5) pair plus a flag recording whether an MD5 digest was
computed. -/
def prepWrite (cfg : Config) (md5Of : Block → Digest) (src : Option Block)
    (md5 : Option Digest) : Option Block × Digest × Bool :=
  match src with
  | none => (none, zero_md5, false)
  | some d =>
    if d.take cfg.blockSize = zeroBlock cfg then (none, zero_md5, false)
    else
      match md5 with
      | none => (some d, md5Of (d.take cfg.blockSize), true)
      | some m => (some d, m, false)

/-- The while loop of ec_protect_scrub_expired_writtens: pop the list head
while current_time >= head.timestamp + cache_time, removing it from the
hash table as well; returns the new table, the new list and num_removed. -/
def scrubLoop (cfg : Config) (t : Nat) :
    List BlockInfo → List BlockInfo → List BlockInfo × List BlockInfo × Nat
  | tbl, [] => (tbl, [], 0)
  | tbl, e :: rest =>
    if e.timestamp + cfg.cacheTime ≤ t then
      let out := scrubLoop cfg t (hashRemove tbl e.blockNum) rest
      (out.1, out.2.1, out.2.2 + 1)
    else (tbl, e :: rest, 0)

/-- The ec_protect_scrub_expired_writtens function: run the scrub loop on
the state; the second component is num_removed, which drives the
space_cond signal/broadcast choice. -/
def ec_protect_scrub_expired_writtens (cfg : Config) (s : ECState) (t : Nat) :
    ECState × Nat :=
  let out := scrubLoop cfg t s.table s.list
  ({ s with table := out.1, list := out.2.1 }, out.2.2)

/-- What the scrubber does to space_cond waiters, from its switch on
num_removed. -/
inductive SpaceSignal where
  | nothing
  | one
  | broadcast
deriving DecidableEq

/-- The switch (num_removed) at the end of the scrubber: no wakeup for 0,
pthread_cond_signal for 1, pthread_cond_broadcast otherwise. -/
def signalFor : Nat → SpaceSignal
  | 0 => .nothing
  | 1 => .one
  | _ => .broadcast

/-- Outcome of the locked section of ec_protect_read_block: the state after
scrub and stats update, the bytes served locally (if any), the expected MD5
forwarded to the inner read when delegating, and whether the impossible
expected MD5 warning was logged. -/
structure ReadDecision where
  state : ECState
  served : Option Block
  expectForwarded : Option Digest
  warned : Bool
deriving DecidableEq

/-- The locked section of ec_protect_read_block (lines 256-292): scrub, then
serve a WRITING hit from the in-flight buffer, serve a zero-fingerprint
WRITTEN hit as zeroes, or fall through to the inner read with the cached
fingerprint (warning if the caller supplied a different one) or with the
caller's expected MD5 on a miss. -/
def readBlockAux (cfg : Config) (t : Nat) (bn : Nat) (expect : Option Digest)
    (s : ECState) : ReadDecision :=
  let s₁ := (ec_protect_scrub_expired_writtens cfg s t).1
  match hashGet s₁.table bn with
  | some bi =>
    if bi.timestamp = 0 then
      let dest := match bi.payload.getData with
        | none => zeroBlock cfg
        | some d => d.take cfg.blockSize
      { state := { s₁ with cacheDataHits := s₁.cacheDataHits + 1 },
        served := some dest, expectForwarded := none, warned := false }
    else if bi.payload.getMd5 = zero_md5 then
      { state := { s₁ with cacheDataHits := s₁.cacheDataHits + 1 },
        served := some (zeroBlock cfg), expectForwarded := none, warned := false }
    else
      { state := s₁, served := none, expectForwarded := some bi.payload.getMd5,
        warned := match expect with
          | some e => decide (e ≠ bi.payload.getMd5)
          | none => false }
  | none =>
    { state := s₁, served := none, expectForwarded := expect, warned := false }

/-- The full ec_protect_read_block: serve locally when the locked section
did, otherwise delegate to the inner read_block with the forwarded expected
MD5, returning its status unchanged.  The inner read is a parameter
(status, content returned into dest). -/
def ec_protect_read_block (cfg : Config) (innerRead : Nat → Option Digest → Nat × Block)
    (t : Nat) (bn : Nat) (expect : Option Digest) (s : ECState) : Nat × Block × ECState :=
  let d := readBlockAux cfg t bn expect s
  match d.served with
  | some dest => (0, dest, d.state)
  | none =>
    let out := innerRead bn d.expectForwarded
    (out.1, out.2, d.state)

/-- Result of one pass from the again label of ec_protect_write_block up to
either a sleep or the release of the mutex before the inner write. -/
inductive IterResult where
  | fullWait (wake : Option Nat) (s : ECState)
  | writingWait (wake : Nat) (s : ECState)
  | writtenWait (wake : Nat) (s : ECState)
  | doWrite (s : ECState)
deriving DecidableEq

/-- Whether the pass reached the writeit label (issues the backend write). -/
def IterResult.isDoWrite : IterResult → Bool
  | .doWrite _ => true
  | _ => false

/-- The WRITTEN-to-WRITING demotion of lines 424-425: timestamp := 0 and
u.data := src on the (unique) record with the given key. -/
def setWriting : List BlockInfo → Nat → Option Block → List BlockInfo
  | [], _, _ => []
  | bi :: rest, bn, src =>
    if bi.blockNum = bn then { bi with timestamp := 0, payload := .data src } :: rest
    else bi :: setWriting rest bn src

/-- The WRITING-to-WRITTEN promotion of lines 393-394: timestamp := now and
u.md5 := md5 on the (unique) record with the given key. -/
def setWritten : List BlockInfo → Nat → Nat → Digest → List BlockInfo
  | [], _, _, _ => []
  | bi :: rest, bn, ts, fp =>
    if bi.blockNum = bn then { bi with timestamp := ts, payload := .md5 fp } :: rest
    else bi :: setWritten rest bn ts fp

/-- One pass of ec_protect_write_block from the again label (lines 342-427),
taking the already canonicalized src and md5: scrub, look the block up,
then either sleep (capacity full, WRITING found, or WRITTEN too recent) or
install/demote the record to WRITING and proceed to the backend write. -/
def writeAttempt (cfg : Config) (t : Nat) (bn : Nat) (src : Option Block)
    (fp : Digest) (s : ECState) : IterResult :=
  let s₁ := (ec_protect_scrub_expired_writtens cfg s t).1
  match hashGet s₁.table bn with
  | none =>
    if cfg.cacheSize ≤ s₁.table.length then
      match s₁.list.head? with
      | some h => .fullWait (some (h.timestamp + cfg.cacheTime)) s₁
      | none => .fullWait none s₁
    else
      .doWrite { s₁ with table := hashPut s₁.table ⟨bn, 0, .data src⟩ }
  | some bi =>
    if bi.timestamp = 0 then
      .writingWait (t + cfg.minWriteDelay) s₁
    else if t < bi.timestamp + cfg.minWriteDelay then
      .writtenWait (bi.timestamp + cfg.minWriteDelay) s₁
    else
      .doWrite { s₁ with table := setWriting s₁.table bn src,
                         list := hashRemove s₁.list bn }

/-- Lines 383-397 of ec_protect_write_block, after the inner write returned
r at time t: on error remove the provisional WRITING record, signal
space_cond (third component true) and return r; on success move the record
to WRITTEN (timestamp := t, u.md5 := fp) and append it to the list tail. -/
def afterInnerWrite (r : Nat) (t : Nat) (bn : Nat) (fp : Digest) (s : ECState) :
    Nat × ECState × Bool :=
  if r = 0 then
    (0, { s with table := setWritten s.table bn t fp,
                 list := s.list ++ [⟨bn, t, .md5 fp⟩] }, false)
  else
    (r, { s with table := hashRemove s.table bn }, true)

/-- The inner store for the write path: given the current store contents,
the block number, the (canonicalized) source and the md5 argument, return
the status and the new store contents. -/
abbrev Store := Nat → Block

/-- The deterministic single-threaded driver for the again loop of
ec_protect_write_block: a sleeping pass resumes at its wake time (adding
the slept delay to the matching stats counter), an unbounded capacity wait
never wakes (none), and a doWrite pass runs the inner write (modelled as
instantaneous, so the completion timestamp is the pass time) and finishes
through afterInnerWrite.  Returns (status, state, store, completion time). -/
def writeLoop (cfg : Config) (innerWrite : Store → Nat → Option Block → Digest → Nat × Store)
    (bn : Nat) (src : Option Block) (fp : Digest) :
    Nat → Nat → ECState → Store → Option (Nat × ECState × Store × Nat)
  | 0, _, _, _ => none
  | fuel + 1, t, s, store =>
    match writeAttempt cfg t bn src fp s with
    | .doWrite s₁ =>
      let out := innerWrite store bn src fp
      let fin := afterInnerWrite out.1 t bn fp s₁
      some (fin.1, fin.2.1, out.2, t)
    | .fullWait (some wake) s₁ =>
      writeLoop cfg innerWrite bn src fp fuel wake
        { s₁ with cacheFullDelay := s₁.cacheFullDelay + (wake - t) } store
    | .fullWait none _ => none
    | .writingWait wake s₁ =>
      writeLoop cfg innerWrite bn src fp fuel wake
        { s₁ with repeatedWriteDelay := s₁.repeatedWriteDelay + (wake - t) } store
    | .writtenWait wake s₁ =>
      writeLoop cfg innerWrite bn src fp fuel wake
        { s₁ with repeatedWriteDelay := s₁.repeatedWriteDelay + (wake - t) } store

/-- The EINVAL errno returned when block_size is 0. -/
def EINVAL : Nat := 22

/-- The full single-threaded ec_protect_write_block: EINVAL on a zero block
size, otherwise canonicalize src and md5 and run the again loop. -/
def ec_protect_write_block (cfg : Config) (md5Of : Block → Digest)
    (innerWrite : Store → Nat → Option Block → Digest → Nat × Store)
    (fuel t : Nat) (bn : Nat) (src : Option Block) (md5 : Option Digest)
    (s : ECState) (store : Store) : Option (Nat × ECState × Store × Nat) :=
  if cfg.blockSize = 0 then some (EINVAL, s, store, t)
  else
    let p := prepWrite cfg md5Of src md5
    writeLoop cfg innerWrite bn p.1 p.2.1 fuel t s store

/-- A backend that faithfully stores what it is given and returns success;
a NULL source is stored as the all-zeroes block (the backend treats NULL as
an all-zeroes payload). -/
def faithfulWrite (cfg : Config) (store : Store) (bn : Nat) (src : Option Block)
    (fp : Digest) : Nat × Store :=
  (0, fun b => if b = bn then (match src with | none => zeroBlock cfg | some d => d) else store b)

/-- A backend read that faithfully returns what was stored and succeeds
(its fingerprint verification passes on faithfully stored data). -/
def faithfulRead (store : Store) (bn : Nat) (expect : Option Digest) : Nat × Block :=
  (0, store bn)

/-- Arithmetic of uint64: subtraction modulo 2^64. -/
def sub64 (a b : Nat) : Nat := (2 ^ 64 + a % 2 ^ 64 - b % 2 ^ 64) % 2 ^ 64

/-- How the wait in ec_protect_sleep_until ended: pthread_cond_timedwait
returned ETIMEDOUT (with tActual the wall clock at that moment, which the
code does not read; POSIX only guarantees tActual ≥ the deadline), or the
wait returned by signal or spuriously and the subsequent
ec_protect_get_time call read tAfter. -/
inductive WaitResult where
  | timedOut (tActual : Nat)
  | signaled (tAfter : Nat)
deriving DecidableEq

/-- The wall-clock time at which the wait actually ended. -/
def wakeClock : WaitResult → Nat
  | .timedOut tActual => tActual
  | .signaled tAfter => tAfter

/-- The ec_protect_sleep_until function (lines 476-500): timeBefore is the
get_time reading at entry; with a nonzero wake time, an ETIMEDOUT return
yields wake_time_millis - time_before (the code substitutes the deadline
for the clock) and a signaled return yields time_after - time_before; with
a zero wake time the code calls pthread_cond_wait, which never times out
(the timedOut arm there is unreachable and returns 0).  hasCond records
whether the caller passed a real condition variable (the assert requires
hasCond or a nonzero wake time); it does not affect the returned value. -/
def ec_protect_sleep_until (hasCond : Bool) (timeBefore : Nat)
    (wakeTimeMillis : Nat) (w : WaitResult) : Nat :=
  if wakeTimeMillis ≠ 0 then
    match w with
    | .timedOut _ => sub64 wakeTimeMillis timeBefore
    | .signaled tAfter => sub64 tAfter timeBefore
  else
    match w with
    | .timedOut _ => 0
    | .signaled tAfter => sub64 tAfter timeBefore

/-- A whole-system configuration for the concurrent semantics: the shared
ec_protect state, the multiset of block numbers with a backend write in
flight (threads between the writeit unlock and the relock), and the last
wall-clock reading (the clock is monotone). -/
structure Sys where
  ec : ECState
  inflight : List Nat
  clock : Nat
deriving DecidableEq

/-- The mutex-held steps of the shim, each stamped with the wall-clock time
at which it runs: the locked section of a read, one pass of the write again
loop, the relocked completion of a backend write, and a standalone scrub
(the periodic sweeper thread). -/
inductive Op where
  | readOp (t bn : Nat) (expect : Option Digest)
  | writeTry (t bn : Nat) (src : Option Block) (fp : Digest)
  | writeDone (t bn : Nat) (r : Nat) (fp : Digest)
  | scrubOp (t : Nat)
deriving DecidableEq

/-- The wall-clock stamp of a step. -/
def Op.time : Op → Nat
  | .readOp t _ _ => t
  | .writeTry t _ _ _ => t
  | .writeDone t _ _ _ => t
  | .scrubOp t => t

/-- Apply one mutex-held step to the whole-system state.  A writeTry whose
pass reaches writeit puts its block in flight; a writeDone takes it out. -/
def step (cfg : Config) (sys : Sys) : Op → Sys
  | .readOp t bn expect =>
    { ec := (readBlockAux cfg t bn expect sys.ec).state,
      inflight := sys.inflight, clock := t }
  | .writeTry t bn src fp =>
    match writeAttempt cfg t bn src fp sys.ec with
    | .doWrite s₁ => { ec := s₁, inflight := bn :: sys.inflight, clock := t }
    | .fullWait _ s₁ => { ec := s₁, inflight := sys.inflight, clock := t }
    | .writingWait _ s₁ => { ec := s₁, inflight := sys.inflight, clock := t }
    | .writtenWait _ s₁ => { ec := s₁, inflight := sys.inflight, clock := t }
  | .writeDone t bn r fp =>
    { ec := (afterInnerWrite r t bn fp sys.ec).2.1,
      inflight := sys.inflight.erase bn, clock := t }
  | .scrubOp t =>
    { ec := (ec_protect_scrub_expired_writtens cfg sys.ec t).1,
      inflight := sys.inflight, clock := t }

/-- Run a sequence of steps. -/
def runOps (cfg : Config) : Sys → List Op → Sys
  | sys, [] => sys
  | sys, op :: ops => runOps cfg (step cfg sys op) ops

/-- A step is valid in a state when its time stamp is positive and not
earlier than the last clock reading, and a writeDone completes a write that
is actually in flight. -/
def validOp (sys : Sys) : Op → Bool
  | .readOp t _ _ => decide (sys.clock ≤ t) && decide (0 < t)
  | .writeTry t _ _ _ => decide (sys.clock ≤ t) && decide (0 < t)
  | .writeDone t bn _ _ =>
    decide (sys.clock ≤ t) && decide (0 < t) && decide (bn ∈ sys.inflight)
  | .scrubOp t => decide (sys.clock ≤ t) && decide (0 < t)

/-- A valid schedule: every step valid in the state it runs from. -/
def validTrace (cfg : Config) : Sys → List Op → Bool
  | _, [] => true
  | sys, op :: ops => validOp sys op && validTrace cfg (step cfg sys op) ops

/-- The state right after ec_protect_create: empty table, empty list, zero
counters. -/
def startState : ECState := ⟨[], [], 0, 0, 0, 0⟩

/-- The whole-system start configuration. -/
def startSys : Sys := ⟨startState, [], 0⟩

/-- The structural invariant claimed for every reachable state: the expiry
list holds exactly the records with a positive timestamp (each coherent
with its hash table entry), block numbers are unique in the table and in
the list, and list timestamps are non-decreasing head to tail. -/
structure ClaimInv (s : ECState) : Prop where
  coh : ∀ e ∈ s.list, hashGet s.table e.blockNum = some e ∧ 0 < e.timestamp
  complete : ∀ e ∈ s.table, 0 < e.timestamp → e ∈ s.list
  keys : (s.table.map BlockInfo.blockNum).Nodup
  listKeys : (s.list.map BlockInfo.blockNum).Nodup
  sorted : s.list.Pairwise (fun a b => a.timestamp ≤ b.timestamp)

/-- The strengthened inductive invariant: the structural invariant plus
bookkeeping tying WRITING records to in-flight writers and list timestamps
to the clock. -/
structure SysInv (sys : Sys) : Prop where
  inv : ClaimInv sys.ec
  writingActive : ∀ e ∈ sys.ec.table, e.timestamp = 0 → e.blockNum ∈ sys.inflight
  inflightWriting : ∀ bn ∈ sys.inflight,
    ∃ e, hashGet sys.ec.table bn = some e ∧ e.timestamp = 0
  inflightNodup : sys.inflight.Nodup
  tsClock : ∀ e ∈ sys.ec.list, e.timestamp ≤ sys.clock

/-! Toolkit lemmas about the keyed-list operations. -/

theorem hashGet_key {tbl : List BlockInfo} {bn : Nat} {bi : BlockInfo}
    (h : hashGet tbl bn = some bi) : bi.blockNum = bn := by
  induction tbl with
  | nil => simp [hashGet] at h
  | cons x rest ih =>
    by_cases hx : x.blockNum = bn
    · simp [hashGet, hx] at h
      subst h; exact hx
    · simp [hashGet, hx] at h
      exact ih h

theorem hashGet_mem {tbl : List BlockInfo} {bn : Nat} {bi : BlockInfo}
    (h : hashGet tbl bn = some bi) : bi ∈ tbl := by
  induction tbl with
  | nil => simp [hashGet] at h
  | cons x rest ih =>
    by_cases hx : x.blockNum = bn
    · simp [hashGet, hx] at h
      simp [h]
    · simp [hashGet, hx] at h
      exact List.mem_cons_of_mem x (ih h)

theorem hashGet_eq_none {tbl : List BlockInfo} {bn : Nat} :
    hashGet tbl bn = none ↔ ∀ e ∈ tbl, e.blockNum ≠ bn := by
  induction tbl with
  | nil => simp [hashGet]
  | cons x rest ih =>
    by_cases hx : x.blockNum = bn
    · simp [hashGet, hx]
    · simp [hashGet, hx, ih]

theorem hashGet_cons_ne {x : BlockInfo} {rest : List BlockInfo} {bn : Nat}
    (h : x.blockNum ≠ bn) : hashGet (x :: rest) bn = hashGet rest bn := by
  simp [hashGet, h]

theorem hashRemove_sublist (tbl : List BlockInfo) (k : Nat) :
    List.Sublist (hashRemove tbl k) tbl := by
  induction tbl with
  | nil => simp [hashRemove]
  | cons x rest ih =>
    by_cases hx : x.blockNum = k
    · rw [hashRemove, if_pos hx]
      exact List.sublist_cons_self x rest
    · rw [hashRemove, if_neg hx]
      exact List.Sublist.cons₂ x ih

theorem mem_of_mem_hashRemove {tbl : List BlockInfo} {k : Nat} {e : BlockInfo}
    (h : e ∈ hashRemove tbl k) : e ∈ tbl :=
  (hashRemove_sublist tbl k).mem h

theorem keys_nodup_hashRemove {tbl : List BlockInfo} {k : Nat}
    (h : (tbl.map BlockInfo.blockNum).Nodup) :
    ((hashRemove tbl k).map BlockInfo.blockNum).Nodup :=
  h.sublist ((hashRemove_sublist tbl k).map BlockInfo.blockNum)

theorem length_hashRemove_le (tbl : List BlockInfo) (k : Nat) :
    (hashRemove tbl k).length ≤ tbl.length :=
  (hashRemove_sublist tbl k).length_le

theorem hashGet_hashRemove_ne {tbl : List BlockInfo} {k bn : Nat} (h : k ≠ bn) :
    hashGet (hashRemove tbl k) bn = hashGet tbl bn := by
  induction tbl with
  | nil => simp [hashRemove]
  | cons x rest ih =>
    by_cases hx : x.blockNum = k
    · have hxbn : x.blockNum ≠ bn := by rw [hx]; exact h
      rw [hashRemove, if_pos hx, hashGet, if_neg hxbn]
    · rw [hashRemove, if_neg hx]
      by_cases hb : x.blockNum = bn
      · rw [hashGet, if_pos hb, hashGet, if_pos hb]
      · rw [hashGet_cons_ne hb, hashGet_cons_ne hb]
        exact ih

theorem hashGet_hashRemove_none {tbl : List BlockInfo} {k bn : Nat}
    (h : hashGet tbl bn = none) : hashGet (hashRemove tbl k) bn = none := by
  rw [hashGet_eq_none] at h ⊢
  exact fun e he => h e (mem_of_mem_hashRemove he)

theorem hashGet_hashRemove_self {tbl : List BlockInfo} {k : Nat}
    (h : (tbl.map BlockInfo.blockNum).Nodup) :
    hashGet (hashRemove tbl k) k = none := by
  induction tbl with
  | nil => simp [hashRemove, hashGet]
  | cons x rest ih =>
    simp only [List.map_cons, List.nodup_cons] at h
    by_cases hx : x.blockNum = k
    · simp only [hashRemove, if_pos hx]
      rw [hashGet_eq_none]
      intro e he heq
      apply h.1
      have hmem : e.blockNum ∈ List.map BlockInfo.blockNum rest :=
        List.mem_map_of_mem BlockInfo.blockNum he
      rw [hx, ← heq]
      exact hmem
    · simp only [hashRemove, if_neg hx]
      rw [hashGet_cons_ne hx]
      exact ih h.2

theorem mem_hashRemove_of_ne {tbl : List BlockInfo} {k : Nat} {e : BlockInfo}
    (hm : e ∈ tbl) (hk : e.blockNum ≠ k) : e ∈ hashRemove tbl k := by
  induction tbl with
  | nil => simp at hm
  | cons x rest ih =>
    by_cases hx : x.blockNum = k
    · have : e ≠ x := fun h => hk (h ▸ hx)
      simp [hashRemove, hx]
      rcases List.mem_cons.mp hm with h | h
      · exact absurd h this
      · exact h
    · simp only [hashRemove, if_neg hx]
      rcases List.mem_cons.mp hm with h | h
      · exact h ▸ List.mem_cons_self x _
      · exact List.mem_cons_of_mem x (ih h)

theorem mem_iff_hashGet {tbl : List BlockInfo} {e : BlockInfo}
    (h : (tbl.map BlockInfo.blockNum).Nodup) :
    e ∈ tbl ↔ hashGet tbl e.blockNum = some e := by
  constructor
  · intro hm
    induction tbl with
    | nil => simp at hm
    | cons x rest ih =>
      simp only [List.map_cons, List.nodup_cons] at h
      rcases List.mem_cons.mp hm with rfl | hr
      · simp [hashGet]
      · have hx : x.blockNum ≠ e.blockNum := by
          intro heq
          exact h.1 (heq ▸ List.mem_map_of_mem BlockInfo.blockNum hr)
        rw [hashGet_cons_ne hx]
        exact ih h.2 hr
  · exact hashGet_mem

/-! Lemmas about setWritten and setWriting. -/

theorem map_blockNum_setWritten (tbl : List BlockInfo) (bn ts : Nat) (fp : Digest) :
    (setWritten tbl bn ts fp).map BlockInfo.blockNum = tbl.map BlockInfo.blockNum := by
  induction tbl with
  | nil => simp [setWritten]
  | cons x rest ih =>
    by_cases hx : x.blockNum = bn
    · simp [setWritten, hx]
    · simp [setWritten, hx, ih]

theorem length_setWritten (tbl : List BlockInfo) (bn ts : Nat) (fp : Digest) :
    (setWritten tbl bn ts fp).length = tbl.length := by
  have := congrArg List.length (map_blockNum_setWritten tbl bn ts fp)
  simpa using this

theorem hashGet_setWritten_self {tbl : List BlockInfo} {bn : Nat} {bi : BlockInfo}
    (h : hashGet tbl bn = some bi) (ts : Nat) (fp : Digest) :
    hashGet (setWritten tbl bn ts fp) bn = some ⟨bn, ts, .md5 fp⟩ := by
  induction tbl with
  | nil => simp [hashGet] at h
  | cons x rest ih =>
    by_cases hx : x.blockNum = bn
    · simp [setWritten, hx, hashGet]
    · simp only [hashGet, if_neg hx] at h
      simp only [setWritten, if_neg hx]
      rw [hashGet_cons_ne hx]
      exact ih h

theorem hashGet_setWritten_ne {tbl : List BlockInfo} {bn bn' : Nat}
    (h : bn' ≠ bn) (ts : Nat) (fp : Digest) :
    hashGet (setWritten tbl bn ts fp) bn' = hashGet tbl bn' := by
  induction tbl with
  | nil => simp [setWritten]
  | cons x rest ih =>
    by_cases hx : x.blockNum = bn
    · have hx' : x.blockNum ≠ bn' := by rw [hx]; exact fun hh => h hh.symm
      rw [setWritten, if_pos hx]
      simp [hashGet, hx']
    · rw [setWritten, if_neg hx]
      by_cases hb : x.blockNum = bn'
      · rw [hashGet, if_pos hb, hashGet, if_pos hb]
      · rw [hashGet_cons_ne hb, hashGet_cons_ne hb]
        exact ih

theorem map_blockNum_setWriting (tbl : List BlockInfo) (bn : Nat) (src : Option Block) :
    (setWriting tbl bn src).map BlockInfo.blockNum = tbl.map BlockInfo.blockNum := by
  induction tbl with
  | nil => simp [setWriting]
  | cons x rest ih =>
    by_cases hx : x.blockNum = bn
    · simp [setWriting, hx]
    · simp [setWriting, hx, ih]

theorem length_setWriting (tbl : List BlockInfo) (bn : Nat) (src : Option Block) :
    (setWriting tbl bn src).length = tbl.length := by
  have := congrArg List.length (map_blockNum_setWriting tbl bn src)
  simpa using this

theorem hashGet_setWriting_self {tbl : List BlockInfo} {bn : Nat} {bi : BlockInfo}
    (h : hashGet tbl bn = some bi) (src : Option Block) :
    hashGet (setWriting tbl bn src) bn = some ⟨bn, 0, .data src⟩ := by
  induction tbl with
  | nil => simp [hashGet] at h
  | cons x rest ih =>
    by_cases hx : x.blockNum = bn
    · simp [setWriting, hx, hashGet]
    · simp only [hashGet, if_neg hx] at h
      simp only [setWriting, if_neg hx]
      rw [hashGet_cons_ne hx]
      exact ih h

theorem hashGet_setWriting_ne {tbl : List BlockInfo} {bn bn' : Nat}
    (h : bn' ≠ bn) (src : Option Block) :
    hashGet (setWriting tbl bn src) bn' = hashGet tbl bn' := by
  induction tbl with
  | nil => simp [setWriting]
  | cons x rest ih =>
    by_cases hx : x.blockNum = bn
    · have hx' : x.blockNum ≠ bn' := by rw [hx]; exact fun hh => h hh.symm
      rw [setWriting, if_pos hx]
      simp [hashGet, hx']
    · rw [setWriting, if_neg hx]
      by_cases hb : x.blockNum = bn'
      · rw [hashGet, if_pos hb, hashGet, if_pos hb]
      · rw [hashGet_cons_ne hb, hashGet_cons_ne hb]
        exact ih

/-! Lemmas about the scrub loop. -/

/-- The scrub condition of the while loop, as a Bool predicate on records. -/
def expiredB (cfg : Config) (t : Nat) (e : BlockInfo) : Bool :=
  decide (e.timestamp + cfg.cacheTime ≤ t)

theorem scrubLoop_list (cfg : Config) (t : Nat) (tbl l : List BlockInfo) :
    (scrubLoop cfg t tbl l).2.1 = l.dropWhile (expiredB cfg t) := by
  induction l generalizing tbl with
  | nil => simp [scrubLoop]
  | cons e rest ih =>
    by_cases he : e.timestamp + cfg.cacheTime ≤ t
    · simp only [scrubLoop, if_pos he, List.dropWhile]
      rw [ih]
      simp [expiredB, he]
    · simp only [scrubLoop, if_neg he, List.dropWhile]
      simp [expiredB, he]

theorem scrubLoop_count (cfg : Config) (t : Nat) (tbl l : List BlockInfo) :
    (scrubLoop cfg t tbl l).2.2 = (l.takeWhile (expiredB cfg t)).length := by
  induction l generalizing tbl with
  | nil => simp [scrubLoop]
  | cons e rest ih =>
    by_cases he : e.timestamp + cfg.cacheTime ≤ t
    · simp only [scrubLoop, if_pos he, List.takeWhile]
      rw [ih]
      simp [expiredB, he]
    · simp only [scrubLoop, if_neg he, List.takeWhile]
      simp [expiredB, he]

theorem scrubLoop_table_sublist (cfg : Config) (t : Nat) (tbl l : List BlockInfo) :
    List.Sublist (scrubLoop cfg t tbl l).1 tbl := by
  induction l generalizing tbl with
  | nil => simp [scrubLoop]
  | cons e rest ih =>
    by_cases he : e.timestamp + cfg.cacheTime ≤ t
    · simp only [scrubLoop, if_pos he]
      exact (ih (hashRemove tbl e.blockNum)).trans (hashRemove_sublist tbl e.blockNum)
    · simp [scrubLoop, if_neg he]

theorem scrubLoop_keys_nodup {cfg : Config} {t : Nat} {tbl : List BlockInfo}
    (l : List BlockInfo) (h : (tbl.map BlockInfo.blockNum).Nodup) :
    ((scrubLoop cfg t tbl l).1.map BlockInfo.blockNum).Nodup :=
  h.sublist ((scrubLoop_table_sublist cfg t tbl l).map BlockInfo.blockNum)

theorem scrubLoop_get_none {cfg : Config} {t bn : Nat} {tbl l : List BlockInfo}
    (h : hashGet tbl bn = none) : hashGet (scrubLoop cfg t tbl l).1 bn = none := by
  induction l generalizing tbl with
  | nil => simpa [scrubLoop] using h
  | cons e rest ih =>
    by_cases he : e.timestamp + cfg.cacheTime ≤ t
    · simp only [scrubLoop, if_pos he]
      exact ih (hashGet_hashRemove_none h)
    · simpa [scrubLoop, if_neg he] using h

theorem scrubLoop_get {cfg : Config} {t : Nat} {tbl : List BlockInfo}
    (l : List BlockInfo) (h : (tbl.map BlockInfo.blockNum).Nodup) (bn : Nat) :
    hashGet (scrubLoop cfg t tbl l).1 bn =
      if bn ∈ (l.takeWhile (expiredB cfg t)).map BlockInfo.blockNum then none
      else hashGet tbl bn := by
  induction l generalizing tbl with
  | nil => simp [scrubLoop]
  | cons e rest ih =>
    by_cases he : e.timestamp + cfg.cacheTime ≤ t
    · have hexp : expiredB cfg t e = true := by simp [expiredB, he]
      simp only [scrubLoop, if_pos he, List.takeWhile, hexp, List.map_cons]
      rw [ih (keys_nodup_hashRemove h)]
      by_cases hb : bn = e.blockNum
      · subst hb
        simp [hashGet_hashRemove_self h]
      · have hne : e.blockNum ≠ bn := fun hh => hb hh.symm
        by_cases hr : bn ∈ (rest.takeWhile (expiredB cfg t)).map BlockInfo.blockNum
        · simp [hr, hb]
        · simp [hr, hb, hashGet_hashRemove_ne hne]
    · have hexp : expiredB cfg t e = false := by simp [expiredB, he]
      simp [scrubLoop, if_neg he, List.takeWhile, hexp]

theorem scrubLoop_get_preserved {cfg : Config} {t bn : Nat} {tbl l : List BlockInfo}
    {bi : BlockInfo} (hl : ∀ e ∈ l, e.blockNum = bn → t < e.timestamp + cfg.cacheTime)
    (h : hashGet tbl bn = some bi) :
    hashGet (scrubLoop cfg t tbl l).1 bn = some bi := by
  induction l generalizing tbl with
  | nil => simpa [scrubLoop] using h
  | cons e rest ih =>
    by_cases he : e.timestamp + cfg.cacheTime ≤ t
    · have hne : e.blockNum ≠ bn := by
        intro heq
        exact absurd (hl e (List.mem_cons_self e rest) heq) (not_lt.mpr he)
      simp only [scrubLoop, if_pos he]
      exact ih (fun x hx => hl x (List.mem_cons_of_mem e hx))
        ((hashGet_hashRemove_ne hne).trans h)
    · simpa [scrubLoop, if_neg he] using h

theorem takeWhile_expired_eq_filter {cfg : Config} {t : Nat} {l : List BlockInfo}
    (hs : l.Pairwise (fun a b => a.timestamp ≤ b.timestamp)) :
    l.takeWhile (expiredB cfg t) = l.filter (expiredB cfg t) := by
  induction l with
  | nil => simp
  | cons e rest ih =>
    rw [List.pairwise_cons] at hs
    by_cases he : e.timestamp + cfg.cacheTime ≤ t
    · have hexp : expiredB cfg t e = true := by simp [expiredB, he]
      simp [List.takeWhile, List.filter, hexp, ih hs.2]
    · have hexp : expiredB cfg t e = false := by simp [expiredB, he]
      have hrest : rest.filter (expiredB cfg t) = [] := by
        rw [List.filter_eq_nil_iff]
        intro a ha
        have : e.timestamp ≤ a.timestamp := hs.1 a ha
        simp only [expiredB, decide_eq_true_eq]
        omega
      simp [List.takeWhile, List.filter, hexp, hrest]

theorem dropWhile_expired_eq_filter {cfg : Config} {t : Nat} {l : List BlockInfo}
    (hs : l.Pairwise (fun a b => a.timestamp ≤ b.timestamp)) :
    l.dropWhile (expiredB cfg t) = l.filter (fun e => !expiredB cfg t e) := by
  induction l with
  | nil => simp
  | cons e rest ih =>
    rw [List.pairwise_cons] at hs
    by_cases he : e.timestamp + cfg.cacheTime ≤ t
    · have hexp : expiredB cfg t e = true := by simp [expiredB, he]
      simp [List.dropWhile, List.filter, hexp, ih hs.2]
    · have hexp : expiredB cfg t e = false := by simp [expiredB, he]
      have hrest : rest.filter (fun e => !expiredB cfg t e) = rest := by
        rw [List.filter_eq_self]
        intro a ha
        have : e.timestamp ≤ a.timestamp := hs.1 a ha
        simp only [expiredB, Bool.not_eq_true', decide_eq_false_iff_not, not_le]
        omega
      simp [List.dropWhile, List.filter, hexp, hrest]

/-- Helper: what the locked read section does on a WRITTEN hit with a
non-zero fingerprint. -/
theorem readBlockAux_written (cfg : Config) (t bn : Nat) (expect : Option Digest)
    (s : ECState) (bi : BlockInfo)
    (hfind : hashGet ((ec_protect_scrub_expired_writtens cfg s t).1).table bn = some bi)
    (hts : bi.timestamp ≠ 0) (hfp : bi.payload.getMd5 ≠ zero_md5) :
    readBlockAux cfg t bn expect s =
      { state := (ec_protect_scrub_expired_writtens cfg s t).1, served := none,
        expectForwarded := some bi.payload.getMd5,
        warned := match expect with
          | some e => decide (e ≠ bi.payload.getMd5)
          | none => false } := by
  simp [readBlockAux, hfind, hts, hfp]

/-! Claim theorems. -/

/-- C9 counterexample: the claim says ec_protect_sleep_until returns the
elapsed wall-clock milliseconds between entry and return whatever woke it.
On the deadline path the code substitutes wake_time_millis for the clock
reading, so when pthread_cond_timedwait reports ETIMEDOUT at actual wall
clock 150 (POSIX only guarantees the ETIMEDOUT return happens at or after
the deadline) with entry time 0 and deadline 100, the function returns 100
while the actual elapsed time is 150. -/
theorem c9_sleep_until_counterexample :
    ec_protect_sleep_until true 0 100 (.timedOut 150) ≠
      sub64 (wakeClock (.timedOut 150)) 0 := by
  decide

/-- C9 amended: with a real condition or a nonzero wake time (the assert's
contract), ec_protect_sleep_until returns the elapsed milliseconds computed
as the actual clock difference when the wait ends by signal or spuriously,
and as wake_time_millis minus the entry time when it ends by the deadline -
that is, the actual time slept only under the convention that a deadline
wake happened exactly at the deadline (the last conjunct). -/
theorem c9_sleep_until_elapsed (hasCond : Bool) (timeBefore wakeTime : Nat)
    (hassert : hasCond = true ∨ wakeTime ≠ 0) :
    (∀ tAfter, ec_protect_sleep_until hasCond timeBefore wakeTime (.signaled tAfter) =
        sub64 tAfter timeBefore) ∧
    (wakeTime ≠ 0 → ∀ tActual,
        ec_protect_sleep_until hasCond timeBefore wakeTime (.timedOut tActual) =
          sub64 wakeTime timeBefore) ∧
    (wakeTime ≠ 0 →
        ec_protect_sleep_until hasCond timeBefore wakeTime (.timedOut wakeTime) =
          sub64 (wakeClock (.timedOut wakeTime)) timeBefore) := by
  refine ⟨fun tAfter => ?_, fun hw tActual => ?_, fun hw => ?_⟩
  · by_cases hwt : wakeTime ≠ 0 <;> simp [ec_protect_sleep_until, hwt]
  · simp [ec_protect_sleep_until, hw]
  · simp [ec_protect_sleep_until, hw, wakeClock]

/-- C9 witness: a timed wait entered at time 5 with deadline 100 that times
out (at actual time 150) returns 100 - 5 = 95. -/
theorem c9_sleep_until_witness :
    ec_protect_sleep_until true 5 100 (.timedOut 150) = sub64 100 5 :=
  (c9_sleep_until_elapsed true 5 100 (Or.inl rfl)).2.1 (by decide) 150

/-- C7: a read that finds its block WRITTEN with a non-zero fingerprint
serves nothing locally, forwards the cached fingerprint (not the caller's)
to the inner read as the expected MD5, logs the impossible expected MD5
warning exactly when the caller supplied a different expected value, and
returns the inner read's status unchanged. -/
theorem c7_read_verification_handoff (cfg : Config) (t bn : Nat)
    (expect : Option Digest) (s : ECState) (bi : BlockInfo)
    (hfind : hashGet ((ec_protect_scrub_expired_writtens cfg s t).1).table bn = some bi)
    (hts : bi.timestamp ≠ 0) (hfp : bi.payload.getMd5 ≠ zero_md5) :
    (readBlockAux cfg t bn expect s).served = none ∧
    (readBlockAux cfg t bn expect s).expectForwarded = some bi.payload.getMd5 ∧
    (∀ e, expect = some e → e ≠ bi.payload.getMd5 →
      (readBlockAux cfg t bn expect s).warned = true) ∧
    (∀ innerRead : Nat → Option Digest → Nat × Block,
      (ec_protect_read_block cfg innerRead t bn expect s).1 =
        (innerRead bn (some bi.payload.getMd5)).1) := by
  have haux := readBlockAux_written cfg t bn expect s bi hfind hts hfp
  refine ⟨by rw [haux], by rw [haux], ?_, ?_⟩
  · intro e he hne
    rw [haux]
    subst he
    simp [hne]
  · intro innerRead
    simp [ec_protect_read_block, haux]

/-- C7 witness: a concrete WRITTEN record with fingerprint of sixteen 1s is
forwarded to the inner read and the inner status 7 comes back unchanged. -/
theorem c7_read_verification_handoff_witness :
    (readBlockAux ⟨4, 2, 200, 100⟩ 5 3 (some (List.replicate 16 2))
        ⟨[⟨3, 1, .md5 (List.replicate 16 1)⟩], [⟨3, 1, .md5 (List.replicate 16 1)⟩], 0, 0, 0, 0⟩).expectForwarded =
      some (List.replicate 16 1) ∧
    (ec_protect_read_block ⟨4, 2, 200, 100⟩ (fun _ e => (7, [1, 2, 3, 4])) 5 3
        (some (List.replicate 16 2))
        ⟨[⟨3, 1, .md5 (List.replicate 16 1)⟩], [⟨3, 1, .md5 (List.replicate 16 1)⟩], 0, 0, 0, 0⟩).1 = 7 := by
  have h := c7_read_verification_handoff ⟨4, 2, 200, 100⟩ 5 3 (some (List.replicate 16 2))
    ⟨[⟨3, 1, .md5 (List.replicate 16 1)⟩], [⟨3, 1, .md5 (List.replicate 16 1)⟩], 0, 0, 0, 0⟩
    ⟨3, 1, .md5 (List.replicate 16 1)⟩ (by decide) (by decide) (by decide)
  exact ⟨h.2.1, h.2.2.2 (fun _ e => (7, [1, 2, 3, 4]))⟩

/-- C10: a caller-supplied fingerprint for a non-null, non-zero source is
stored untouched and unverified: canonicalization keeps (src, md5)
unchanged and computes no digest (whatever md5Of would say), a successful
completion stores exactly that fingerprint in the WRITTEN record, and a
subsequent cached read forwards it to the backend as the expected value. -/
theorem c10_unverified_md5 (cfg : Config) (md5Of : Block → Digest) (S : Block)
    (m : Digest) (hS : ¬ S.take cfg.blockSize = zeroBlock cfg) (hm : m ≠ zero_md5) :
    prepWrite cfg md5Of (some S) (some m) = (some S, m, false) ∧
    (∀ tNow bn s bi, hashGet s.table bn = some bi →
      hashGet ((afterInnerWrite 0 tNow bn m s).2.1).table bn = some ⟨bn, tNow, .md5 m⟩) ∧
    (∀ cfg₂ t bn ts expect s,
      hashGet ((ec_protect_scrub_expired_writtens cfg₂ s t).1).table bn =
        some ⟨bn, ts, .md5 m⟩ → ts ≠ 0 →
      (readBlockAux cfg₂ t bn expect s).expectForwarded = some m) := by
  refine ⟨by simp [prepWrite, hS], fun tNow bn s bi hfind => ?_, ?_⟩
  · simp only [afterInnerWrite, if_pos rfl]
    exact hashGet_setWritten_self hfind tNow m
  · intro cfg₂ t bn ts expect s hfind hts
    have hfp : (BlockInfo.mk bn ts (.md5 m)).payload.getMd5 ≠ zero_md5 := by
      simpa [Payload.getMd5] using hm
    rw [readBlockAux_written cfg₂ t bn expect s (BlockInfo.mk bn ts (.md5 m)) hfind hts hfp]
    simp [Payload.getMd5]


/-- C10 witness: a deliberately wrong caller fingerprint (sixteen 9s, while
md5Of would give sixteen 1s) is kept by canonicalization, stored by a
successful completion and forwarded by a later read. -/
theorem c10_unverified_md5_witness :
    prepWrite ⟨4, 2, 200, 100⟩ (fun _ => List.replicate 16 1) (some [5, 6, 7, 8])
        (some (List.replicate 16 9)) = (some [5, 6, 7, 8], List.replicate 16 9, false) ∧
    hashGet ((afterInnerWrite 0 20 7 (List.replicate 16 9)
        ⟨[⟨7, 0, .data (some [5, 6, 7, 8])⟩], [], 0, 0, 0, 0⟩).2.1).table 7 =
      some ⟨7, 20, .md5 (List.replicate 16 9)⟩ ∧
    (readBlockAux ⟨4, 2, 200, 100⟩ 30 7 none
        ⟨[⟨7, 20, .md5 (List.replicate 16 9)⟩], [⟨7, 20, .md5 (List.replicate 16 9)⟩], 0, 0, 0, 0⟩).expectForwarded =
      some (List.replicate 16 9) := by
  have h := c10_unverified_md5 ⟨4, 2, 200, 100⟩ (fun _ => List.replicate 16 1)
    [5, 6, 7, 8] (List.replicate 16 9) (by decide) (by decide)
  refine ⟨h.1, h.2.1 20 7 ⟨[⟨7, 0, .data (some [5, 6, 7, 8])⟩], [], 0, 0, 0, 0⟩
    ⟨7, 0, .data (some [5, 6, 7, 8])⟩ (by decide), ?_⟩
  exact h.2.2 ⟨4, 2, 200, 100⟩ 30 7 20 none
    ⟨[⟨7, 20, .md5 (List.replicate 16 9)⟩], [⟨7, 20, .md5 (List.replicate 16 9)⟩], 0, 0, 0, 0⟩
    (by decide) (by decide)

/-- C6: when the inner write fails with r, the write path removes the
provisional WRITING record, signals space_cond and returns r unchanged,
leaving the block CLEAN: its hash entry is gone, a subsequent read misses
the cache (nothing served locally, the caller's expected MD5 forwarded),
and a subsequent write with room in the (scrubbed) table goes straight
through the CLEAN branch to the backend write with no min_write_delay
stall. -/
theorem c6_write_failure_atomicity (cfg : Config) (r t bn : Nat) (fp : Digest)
    (s : ECState) (hr : r ≠ 0) (hkeys : (s.table.map BlockInfo.blockNum).Nodup) :
    (afterInnerWrite r t bn fp s).1 = r ∧
    (afterInnerWrite r t bn fp s).2.2 = true ∧
    hashGet ((afterInnerWrite r t bn fp s).2.1).table bn = none ∧
    (∀ t₂ expect, (readBlockAux cfg t₂ bn expect (afterInnerWrite r t bn fp s).2.1).served = none ∧
      (readBlockAux cfg t₂ bn expect (afterInnerWrite r t bn fp s).2.1).expectForwarded = expect) ∧
    (∀ t₃ (src₂ : Option Block) (fp₂ : Digest),
      ((ec_protect_scrub_expired_writtens cfg (afterInnerWrite r t bn fp s).2.1 t₃).1).table.length < cfg.cacheSize →
      (writeAttempt cfg t₃ bn src₂ fp₂ (afterInnerWrite r t bn fp s).2.1).isDoWrite = true) := by
  have hout : afterInnerWrite r t bn fp s =
      (r, { s with table := hashRemove s.table bn }, true) := by
    simp [afterInnerWrite, hr]
  have hget : hashGet ((afterInnerWrite r t bn fp s).2.1).table bn = none := by
    rw [hout]
    exact hashGet_hashRemove_self hkeys
  refine ⟨by rw [hout], by rw [hout], hget, fun t₂ expect => ?_, fun t₃ src₂ fp₂ hroom => ?_⟩
  · have hnone : hashGet ((ec_protect_scrub_expired_writtens cfg
        (afterInnerWrite r t bn fp s).2.1 t₂).1).table bn = none := by
      simp only [ec_protect_scrub_expired_writtens]
      exact scrubLoop_get_none hget
    constructor
    · simp [readBlockAux, hnone]
    · simp [readBlockAux, hnone]
  · have hnone : hashGet ((ec_protect_scrub_expired_writtens cfg
        (afterInnerWrite r t bn fp s).2.1 t₃).1).table bn = none := by
      simp only [ec_protect_scrub_expired_writtens]
      exact scrubLoop_get_none hget
    have hlt : ¬ cfg.cacheSize ≤ ((ec_protect_scrub_expired_writtens cfg
        (afterInnerWrite r t bn fp s).2.1 t₃).1).table.length := not_le.mpr hroom
    simp [writeAttempt, hnone, hlt, IterResult.isDoWrite]

/-- C6 witness: inner write error 5 on block 9 whose WRITING record is
present; the error comes back as 5, the record disappears, and a retry
write at the same time goes straight to the backend. -/
theorem c6_write_failure_atomicity_witness :
    (afterInnerWrite 5 3 9 zero_md5 ⟨[⟨9, 0, .data (some [1, 2, 3, 4])⟩], [], 0, 0, 0, 0⟩).1 = 5 ∧
    hashGet ((afterInnerWrite 5 3 9 zero_md5 ⟨[⟨9, 0, .data (some [1, 2, 3, 4])⟩], [], 0, 0, 0, 0⟩).2.1).table 9 = none ∧
    (writeAttempt ⟨4, 2, 200, 100⟩ 3 9 (some [1, 2, 3, 4]) zero_md5
      (afterInnerWrite 5 3 9 zero_md5 ⟨[⟨9, 0, .data (some [1, 2, 3, 4])⟩], [], 0, 0, 0, 0⟩).2.1).isDoWrite = true := by
  have h := c6_write_failure_atomicity ⟨4, 2, 200, 100⟩ 5 3 9 zero_md5
    ⟨[⟨9, 0, .data (some [1, 2, 3, 4])⟩], [], 0, 0, 0, 0⟩ (by decide) (by decide)
  exact ⟨h.1, h.2.2.1, h.2.2.2.2 3 (some [1, 2, 3, 4]) zero_md5 (by decide)⟩

/-- C3: a NULL-source write and an all-zeroes write are canonicalized to
the same (NULL, zero_md5) pair with no MD5 computed, whatever fingerprint
the caller supplied - observationally identical, since the rest of the
write path depends only on the canonicalized pair; and while the zero
record is cached (present and unexpired, in a state whose list entries are
coherent with the table) a read serves block_size zero bytes locally,
bumps cache_data_hits and forwards nothing to the backend. -/
theorem c3_zero_block_law (cfg : Config) (md5Of : Block → Digest) :
    (∀ m, prepWrite cfg md5Of none m = (none, zero_md5, false)) ∧
    (∀ m, prepWrite cfg md5Of (some (zeroBlock cfg)) m = (none, zero_md5, false)) ∧
    (∀ t bn expect s bi,
      (∀ e ∈ s.list, hashGet s.table e.blockNum = some e) →
      hashGet s.table bn = some bi → bi.payload = .md5 zero_md5 →
      0 < bi.timestamp → t < bi.timestamp + cfg.cacheTime →
      (readBlockAux cfg t bn expect s).served = some (zeroBlock cfg) ∧
      (readBlockAux cfg t bn expect s).state.cacheDataHits = s.cacheDataHits + 1 ∧
      (readBlockAux cfg t bn expect s).expectForwarded = none) := by
  refine ⟨fun m => rfl, fun m => by simp [prepWrite, zeroBlock], ?_⟩
  intro t bn expect s bi hcoh hfind hz hts hfresh
  have hl : ∀ e ∈ s.list, e.blockNum = bn → t < e.timestamp + cfg.cacheTime := by
    intro e he heq
    have hh := hcoh e he
    rw [heq, hfind] at hh
    cases hh
    exact hfresh
  have hfind₂ : hashGet (scrubLoop cfg t s.table s.list).1 bn = some bi :=
    scrubLoop_get_preserved hl hfind
  have hts' : ¬ bi.timestamp = 0 := by omega
  have hzz : bi.payload.getMd5 = zero_md5 := by rw [hz]; rfl
  refine ⟨?_, ?_, ?_⟩ <;>
    simp [readBlockAux, ec_protect_scrub_expired_writtens, hfind₂, hts', hzz]

/-- C3 witness: reading block 4 that was zero-written at time 10, at time
50, serves four zero bytes, bumps the data-hit counter from 3 to 4 and
forwards nothing. -/
theorem c3_zero_block_law_witness :
    (readBlockAux ⟨4, 2, 200, 100⟩ 50 4 none
        ⟨[⟨4, 10, .md5 zero_md5⟩], [⟨4, 10, .md5 zero_md5⟩], 3, 0, 0, 0⟩).served =
      some (zeroBlock ⟨4, 2, 200, 100⟩) ∧
    (readBlockAux ⟨4, 2, 200, 100⟩ 50 4 none
        ⟨[⟨4, 10, .md5 zero_md5⟩], [⟨4, 10, .md5 zero_md5⟩], 3, 0, 0, 0⟩).state.cacheDataHits = 4 := by
  have h := (c3_zero_block_law ⟨4, 2, 200, 100⟩ (fun _ => zero_md5)).2.2 50 4 none
    ⟨[⟨4, 10, .md5 zero_md5⟩], [⟨4, 10, .md5 zero_md5⟩], 3, 0, 0, 0⟩
    ⟨4, 10, .md5 zero_md5⟩ (by decide) (by decide) (by decide) (by decide) (by decide)
  exact ⟨h.1, h.2.1⟩

/-- C2: the minimum inter-write delay, in its local form: when the state
holds a record for block bn in WRITTEN (timestamp ts positive, the spec's
completion time of the previous write) and the current time t satisfies
t < ts + min_write_delay, a write pass for bn never reaches the backend
write (isDoWrite is false); it sleeps until ts + min_write_delay.  The
hypotheses are that cache_time is at least min_write_delay (a documented
configuration requirement) and that the expiry list is coherent with the
table, so the unexpired record survives the scrub. -/
theorem c2_min_write_delay (cfg : Config) (t bn : Nat) (src : Option Block)
    (fp : Digest) (s : ECState) (bi : BlockInfo)
    (hconf : cfg.minWriteDelay ≤ cfg.cacheTime)
    (hcoh : ∀ e ∈ s.list, hashGet s.table e.blockNum = some e)
    (hfind : hashGet s.table bn = some bi) (hts : 0 < bi.timestamp)
    (ht : t < bi.timestamp + cfg.minWriteDelay) :
    (writeAttempt cfg t bn src fp s).isDoWrite = false ∧
    writeAttempt cfg t bn src fp s =
      .writtenWait (bi.timestamp + cfg.minWriteDelay)
        ((ec_protect_scrub_expired_writtens cfg s t).1) := by
  have hl : ∀ e ∈ s.list, e.blockNum = bn → t < e.timestamp + cfg.cacheTime := by
    intro e he heq
    have hh := hcoh e he
    rw [heq, hfind] at hh
    cases hh
    omega
  have hfind₂ : hashGet (scrubLoop cfg t s.table s.list).1 bn = some bi :=
    scrubLoop_get_preserved hl hfind
  have hts' : ¬ bi.timestamp = 0 := by omega
  constructor
  · simp [writeAttempt, ec_protect_scrub_expired_writtens, hfind₂, hts', ht,
      IterResult.isDoWrite]
  · simp [writeAttempt, ec_protect_scrub_expired_writtens, hfind₂, hts', ht]

/-- C2 witness: block 7 completed a write at time 40; a new write pass at
time 100 < 140 does not reach the backend and sleeps until 140. -/
theorem c2_min_write_delay_witness :
    (writeAttempt ⟨4, 2, 200, 100⟩ 100 7 (some [9, 9, 9, 9]) zero_md5
        ⟨[⟨7, 40, .md5 (List.replicate 16 1)⟩], [⟨7, 40, .md5 (List.replicate 16 1)⟩], 0, 0, 0, 0⟩).isDoWrite = false := by
  have h := c2_min_write_delay ⟨4, 2, 200, 100⟩ 100 7 (some [9, 9, 9, 9]) zero_md5
    ⟨[⟨7, 40, .md5 (List.replicate 16 1)⟩], [⟨7, 40, .md5 (List.replicate 16 1)⟩], 0, 0, 0, 0⟩
    ⟨7, 40, .md5 (List.replicate 16 1)⟩ (by decide) (by decide) (by decide) (by decide) (by decide)
  exact h.1

/-- C8: running the scrubber at time t on a state whose table keys are
unique and whose list is sorted by timestamp removes from the list exactly
the records with t >= timestamp + cache_time (the expired ones), leaves no
expired record, removes exactly the expired records' keys from the index,
reports their number, and the switch on that number yields no signal for
zero, a single signal for one, and a broadcast for more. -/
theorem c8_scrubber_correct (cfg : Config) (t : Nat) (s : ECState)
    (hkeys : (s.table.map BlockInfo.blockNum).Nodup)
    (hsorted : s.list.Pairwise (fun a b => a.timestamp ≤ b.timestamp)) :
    ((ec_protect_scrub_expired_writtens cfg s t).1).list =
      s.list.filter (fun e => !expiredB cfg t e) ∧
    (∀ e ∈ ((ec_protect_scrub_expired_writtens cfg s t).1).list,
      t < e.timestamp + cfg.cacheTime) ∧
    (ec_protect_scrub_expired_writtens cfg s t).2 =
      (s.list.filter (expiredB cfg t)).length ∧
    (∀ bn, hashGet ((ec_protect_scrub_expired_writtens cfg s t).1).table bn =
      if bn ∈ (s.list.filter (expiredB cfg t)).map BlockInfo.blockNum then none
      else hashGet s.table bn) ∧
    ((ec_protect_scrub_expired_writtens cfg s t).2 = 0 →
      signalFor (ec_protect_scrub_expired_writtens cfg s t).2 = .nothing) ∧
    ((ec_protect_scrub_expired_writtens cfg s t).2 = 1 →
      signalFor (ec_protect_scrub_expired_writtens cfg s t).2 = .one) ∧
    (2 ≤ (ec_protect_scrub_expired_writtens cfg s t).2 →
      signalFor (ec_protect_scrub_expired_writtens cfg s t).2 = .broadcast) := by
  have hlist : ((ec_protect_scrub_expired_writtens cfg s t).1).list =
      s.list.filter (fun e => !expiredB cfg t e) := by
    simp only [ec_protect_scrub_expired_writtens]
    rw [scrubLoop_list]
    exact dropWhile_expired_eq_filter hsorted
  refine ⟨hlist, ?_, ?_, ?_, ?_, ?_, ?_⟩
  · intro e he
    rw [hlist] at he
    have := (List.mem_filter.mp he).2
    simp only [expiredB, Bool.not_eq_true', decide_eq_false_iff_not, not_le] at this
    exact this
  · simp only [ec_protect_scrub_expired_writtens]
    rw [scrubLoop_count, takeWhile_expired_eq_filter hsorted]
  · intro bn
    simp only [ec_protect_scrub_expired_writtens]
    rw [scrubLoop_get s.list hkeys bn, takeWhile_expired_eq_filter hsorted]
  · intro h0
    rw [h0]
    rfl
  · intro h1
    rw [h1]
    rfl
  · intro h2
    rcases hn : (ec_protect_scrub_expired_writtens cfg s t).2 with _ | n
    · omega
    · rcases n with _ | k
      · omega
      · rfl

/-- C8 witness: at time 250, a list with records stamped 10, 40 and 200
(cache_time 200) loses the first two from list and index, keeps the third,
and broadcasts. -/
theorem c8_scrubber_correct_witness :
    ((ec_protect_scrub_expired_writtens ⟨4, 8, 200, 100⟩
        ⟨[⟨1, 10, .md5 zero_md5⟩, ⟨2, 40, .md5 zero_md5⟩, ⟨3, 200, .md5 zero_md5⟩],
          [⟨1, 10, .md5 zero_md5⟩, ⟨2, 40, .md5 zero_md5⟩, ⟨3, 200, .md5 zero_md5⟩],
          0, 0, 0, 0⟩ 250).1).list = [⟨3, 200, .md5 zero_md5⟩] ∧
    hashGet ((ec_protect_scrub_expired_writtens ⟨4, 8, 200, 100⟩
        ⟨[⟨1, 10, .md5 zero_md5⟩, ⟨2, 40, .md5 zero_md5⟩, ⟨3, 200, .md5 zero_md5⟩],
          [⟨1, 10, .md5 zero_md5⟩, ⟨2, 40, .md5 zero_md5⟩, ⟨3, 200, .md5 zero_md5⟩],
          0, 0, 0, 0⟩ 250).1).table 2 = none ∧
    signalFor (ec_protect_scrub_expired_writtens ⟨4, 8, 200, 100⟩
        ⟨[⟨1, 10, .md5 zero_md5⟩, ⟨2, 40, .md5 zero_md5⟩, ⟨3, 200, .md5 zero_md5⟩],
          [⟨1, 10, .md5 zero_md5⟩, ⟨2, 40, .md5 zero_md5⟩, ⟨3, 200, .md5 zero_md5⟩],
          0, 0, 0, 0⟩ 250).2 = .broadcast := by
  have h := c8_scrubber_correct ⟨4, 8, 200, 100⟩ 250
    ⟨[⟨1, 10, .md5 zero_md5⟩, ⟨2, 40, .md5 zero_md5⟩, ⟨3, 200, .md5 zero_md5⟩],
      [⟨1, 10, .md5 zero_md5⟩, ⟨2, 40, .md5 zero_md5⟩, ⟨3, 200, .md5 zero_md5⟩],
      0, 0, 0, 0⟩ (by decide) (by decide)
  refine ⟨?_, ?_, h.2.2.2.2.2.2 ?_⟩
  · rw [h.1]
    decide
  · rw [h.2.2.2.1 2]
    decide
  · rw [h.2.2.1]
    decide

/-- The state carried by a write-pass outcome. -/
def IterResult.state : IterResult → ECState
  | .fullWait _ s => s
  | .writingWait _ s => s
  | .writtenWait _ s => s
  | .doWrite s => s

/-- Helper: the locked read section only scrubs the table (stats aside). -/
theorem readBlockAux_table (cfg : Config) (t bn : Nat) (expect : Option Digest)
    (s : ECState) : (readBlockAux cfg t bn expect s).state.table =
      (scrubLoop cfg t s.table s.list).1 := by
  unfold readBlockAux
  simp only [ec_protect_scrub_expired_writtens]
  rcases hg : hashGet (scrubLoop cfg t s.table s.list).1 bn with _ | bi
  · simp [hg]
  · by_cases h0 : bi.timestamp = 0
    · simp [hg, h0]
    · by_cases hz : bi.payload.getMd5 = zero_md5
      · simp [hg, h0, hz]
      · simp [hg, h0, hz]

/-- Helper: a write pass keeps the table within cache_size; only the CLEAN
branch inserts, and only after checking the capacity guard. -/
theorem writeAttempt_state_length (cfg : Config) (t bn : Nat) (src : Option Block)
    (fp : Digest) (s : ECState) (hc : s.table.length ≤ cfg.cacheSize) :
    (writeAttempt cfg t bn src fp s).state.table.length ≤ cfg.cacheSize := by
  have hsub : (scrubLoop cfg t s.table s.list).1.length ≤ s.table.length :=
    (scrubLoop_table_sublist cfg t s.table s.list).length_le
  unfold writeAttempt
  simp only [ec_protect_scrub_expired_writtens]
  rcases hg : hashGet (scrubLoop cfg t s.table s.list).1 bn with _ | bi
  · by_cases hful : cfg.cacheSize ≤ (scrubLoop cfg t s.table s.list).1.length
    · rcases hh : (scrubLoop cfg t s.table s.list).2.1.head? with _ | h <;>
        simp [hg, hful, hh, IterResult.state] <;> omega
    · simp only [hg, if_neg hful]
      simp [IterResult.state, hashPut]
      omega
  · by_cases h0 : bi.timestamp = 0
    · simp [hg, h0, IterResult.state]
      omega
    · by_cases hlt : t < bi.timestamp + cfg.minWriteDelay
      · simp [hg, h0, hlt, IterResult.state]
        omega
      · simp [hg, h0, hlt, IterResult.state, length_setWriting]
        omega

/-- Helper: a writeTry step lands in the write pass's state. -/
theorem step_writeTry_ec (cfg : Config) (sys : Sys) (t bn : Nat)
    (src : Option Block) (fp : Digest) :
    (step cfg sys (.writeTry t bn src fp)).ec =
      (writeAttempt cfg t bn src fp sys.ec).state := by
  unfold step
  rcases hw : writeAttempt cfg t bn src fp sys.ec with _ | _ | _ | s₁ <;>
    simp [hw, IterResult.state]

/-- Helper: every step keeps the table within cache_size. -/
theorem step_table_length (cfg : Config) (sys : Sys) (op : Op)
    (hc : sys.ec.table.length ≤ cfg.cacheSize) :
    (step cfg sys op).ec.table.length ≤ cfg.cacheSize := by
  rcases op with ⟨t, bn, expect⟩ | ⟨t, bn, src, fp⟩ | ⟨t, bn, r, fp⟩ | t
  · have ht := readBlockAux_table cfg t bn expect sys.ec
    have hsub : (scrubLoop cfg t sys.ec.table sys.ec.list).1.length ≤ sys.ec.table.length :=
      (scrubLoop_table_sublist cfg t sys.ec.table sys.ec.list).length_le
    simp only [step]
    rw [ht]
    omega
  · rw [step_writeTry_ec]
    exact writeAttempt_state_length cfg t bn src fp sys.ec hc
  · simp only [step, afterInnerWrite]
    by_cases hr : r = 0
    · simp [hr, length_setWritten]
      omega
    · have := length_hashRemove_le sys.ec.table bn
      simp [hr]
      omega
  · have hsub : (scrubLoop cfg t sys.ec.table sys.ec.list).1.length ≤ sys.ec.table.length :=
      (scrubLoop_table_sublist cfg t sys.ec.table sys.ec.list).length_le
    simp only [step, ec_protect_scrub_expired_writtens]
    omega

/-- Helper: running any schedule keeps the table within cache_size. -/
theorem runOps_table_length (cfg : Config) :
    ∀ (ops : List Op) (sys : Sys), sys.ec.table.length ≤ cfg.cacheSize →
      (runOps cfg sys ops).ec.table.length ≤ cfg.cacheSize
  | [], _, h => h
  | op :: ops, sys, h =>
    runOps_table_length cfg ops (step cfg sys op) (step_table_length cfg sys op h)

/-- C4: starting from the empty state, no sequence of steps ever pushes the
index past cache_size; and a write pass that finds its block absent and the
(scrubbed) index at capacity waits on the capacity condition - until the
head's expiry when the list is nonempty, unbounded otherwise - and does not
insert. -/
theorem c4_capacity_bound (cfg : Config) :
    (∀ ops, (runOps cfg startSys ops).ec.table.length ≤ cfg.cacheSize) ∧
    (∀ (t bn : Nat) (src : Option Block) (fp : Digest) (s : ECState),
      hashGet ((ec_protect_scrub_expired_writtens cfg s t).1).table bn = none →
      cfg.cacheSize ≤ ((ec_protect_scrub_expired_writtens cfg s t).1).table.length →
      writeAttempt cfg t bn src fp s =
        .fullWait ((((ec_protect_scrub_expired_writtens cfg s t).1).list.head?).map
          (fun h => h.timestamp + cfg.cacheTime))
          ((ec_protect_scrub_expired_writtens cfg s t).1)) := by
  constructor
  · intro ops
    exact runOps_table_length cfg ops startSys (by simp [startSys, startState])
  · intro t bn src fp s hget hful
    simp only [ec_protect_scrub_expired_writtens] at hget hful ⊢
    unfold writeAttempt
    simp only [ec_protect_scrub_expired_writtens, hget]
    rcases hh : (scrubLoop cfg t s.table s.list).2.1.head? with _ | h
    · simp [hget, hful, hh]
    · simp [hget, hful, hh]

/-- C4 witness: a two-step schedule stays within cache_size 2, and a write
pass on a full table with blocks 1 and 2 WRITTEN (timestamps 10 and 20,
cache_time 200) waits until 210 instead of inserting block 9. -/
theorem c4_capacity_bound_witness :
    (runOps ⟨4, 2, 200, 100⟩ startSys
      [.writeTry 1 5 (some [1, 2, 3, 4]) zero_md5,
       .writeDone 2 5 0 zero_md5]).ec.table.length ≤ 2 ∧
    writeAttempt ⟨4, 2, 200, 100⟩ 30 9 (some [1, 2, 3, 4]) zero_md5
        ⟨[⟨1, 10, .md5 zero_md5⟩, ⟨2, 20, .md5 zero_md5⟩],
          [⟨1, 10, .md5 zero_md5⟩, ⟨2, 20, .md5 zero_md5⟩], 0, 0, 0, 0⟩ =
      .fullWait (some 210)
        ⟨[⟨1, 10, .md5 zero_md5⟩, ⟨2, 20, .md5 zero_md5⟩],
          [⟨1, 10, .md5 zero_md5⟩, ⟨2, 20, .md5 zero_md5⟩], 0, 0, 0, 0⟩ := by
  have h := c4_capacity_bound ⟨4, 2, 200, 100⟩
  refine ⟨h.1 [.writeTry 1 5 (some [1, 2, 3, 4]) zero_md5, .writeDone 2 5 0 zero_md5], ?_⟩
  have hb := h.2 30 9 (some [1, 2, 3, 4]) zero_md5
    ⟨[⟨1, 10, .md5 zero_md5⟩, ⟨2, 20, .md5 zero_md5⟩],
      [⟨1, 10, .md5 zero_md5⟩, ⟨2, 20, .md5 zero_md5⟩], 0, 0, 0, 0⟩
    (by decide) (by decide)
  rw [hb]
  decide

/-! Helpers for the round-trip claim. -/

theorem not_mem_keys_of_hashGet_none {tbl : List BlockInfo} {bn : Nat}
    (h : hashGet tbl bn = none) : bn ∉ tbl.map BlockInfo.blockNum := by
  intro hmem
  rcases List.mem_map.mp hmem with ⟨e, he, heq⟩
  exact (hashGet_eq_none.mp h) e he heq

theorem keys_nodup_hashPut {tbl : List BlockInfo} {bi : BlockInfo}
    (h : (tbl.map BlockInfo.blockNum).Nodup) (hnew : hashGet tbl bi.blockNum = none) :
    ((hashPut tbl bi).map BlockInfo.blockNum).Nodup := by
  simp only [hashPut, List.map_cons, List.nodup_cons]
  exact ⟨not_mem_keys_of_hashGet_none hnew, h⟩

theorem hashGet_hashPut_self (tbl : List BlockInfo) (bi : BlockInfo) :
    hashGet (hashPut tbl bi) bi.blockNum = some bi := by
  simp [hashPut, hashGet]

theorem scrubLoop_get_or (cfg : Config) (t : Nat) {bn : Nat} {tbl : List BlockInfo}
    (l : List BlockInfo) (h : (tbl.map BlockInfo.blockNum).Nodup) {v : BlockInfo}
    (hget : hashGet tbl bn = some v) :
    hashGet (scrubLoop cfg t tbl l).1 bn = some v ∨
      hashGet (scrubLoop cfg t tbl l).1 bn = none := by
  rw [scrubLoop_get l h bn]
  by_cases hm : bn ∈ (l.takeWhile (expiredB cfg t)).map BlockInfo.blockNum
  · right
    simp [hm]
  · left
    simp [hm, hget]

theorem mem_of_mem_scrubLoop_list {cfg : Config} {t : Nat} {tbl l : List BlockInfo}
    {e : BlockInfo} (h : e ∈ (scrubLoop cfg t tbl l).2.1) : e ∈ l := by
  rw [scrubLoop_list] at h
  exact (List.dropWhile_sublist (expiredB cfg t)).mem h

/-- Helper: the write loop over a faithful backend can only finish
successfully, at a positive completion time, with the store updated at the
written block, with the block's record WRITTEN carrying the canonicalized
fingerprint, and with table keys still unique. -/
theorem writeLoop_faithful (cfg : Config) (bn : Nat) (src : Option Block) (fp : Digest) :
    ∀ (fuel t : Nat) (s : ECState) (store : Store) (r : Nat) (s₂ : ECState)
      (store₂ : Store) (tEnd : Nat),
      0 < t → (s.table.map BlockInfo.blockNum).Nodup →
      (∀ e ∈ s.list, 0 < e.timestamp) →
      writeLoop cfg (faithfulWrite cfg) bn src fp fuel t s store =
        some (r, s₂, store₂, tEnd) →
      r = 0 ∧ 0 < tEnd ∧
      store₂ = (fun b => if b = bn then
          (match src with | none => zeroBlock cfg | some d => d) else store b) ∧
      hashGet s₂.table bn = some ⟨bn, tEnd, .md5 fp⟩ ∧
      (s₂.table.map BlockInfo.blockNum).Nodup := by
  intro fuel
  induction fuel with
  | zero =>
    intro t s store r s₂ store₂ tEnd ht hkeys hpos hrun
    simp [writeLoop] at hrun
  | succ n ih =>
    intro t s store r s₂ store₂ tEnd ht hkeys hpos hrun
    have hnod1 : ((scrubLoop cfg t s.table s.list).1.map BlockInfo.blockNum).Nodup :=
      scrubLoop_keys_nodup s.list hkeys
    have hpos1 : ∀ e ∈ (scrubLoop cfg t s.table s.list).2.1, 0 < e.timestamp :=
      fun e he => hpos e (mem_of_mem_scrubLoop_list he)
    rw [writeLoop] at hrun
    rcases hg : hashGet (scrubLoop cfg t s.table s.list).1 bn with _ | bi
    · by_cases hful : cfg.cacheSize ≤ (scrubLoop cfg t s.table s.list).1.length
      · rcases hh : (scrubLoop cfg t s.table s.list).2.1.head? with _ | h
        · have hwa : writeAttempt cfg t bn src fp s =
              .fullWait none { s with
                table := (scrubLoop cfg t s.table s.list).1
                list := (scrubLoop cfg t s.table s.list).2.1 } := by
            unfold writeAttempt
            simp [ec_protect_scrub_expired_writtens, hg, hful, hh]
          rw [hwa] at hrun
          simp at hrun
        · have hwa : writeAttempt cfg t bn src fp s =
              .fullWait (some (h.timestamp + cfg.cacheTime))
                { s with
                  table := (scrubLoop cfg t s.table s.list).1
                  list := (scrubLoop cfg t s.table s.list).2.1 } := by
            unfold writeAttempt
            simp [ec_protect_scrub_expired_writtens, hg, hful, hh]
          rw [hwa] at hrun
          have hhm : h ∈ (scrubLoop cfg t s.table s.list).2.1 :=
            List.mem_of_mem_head? hh
          have hw : 0 < h.timestamp + cfg.cacheTime :=
            Nat.lt_of_lt_of_le (hpos1 h hhm) (Nat.le_add_right _ _)
          exact ih _ _ _ _ _ _ _ hw hnod1 hpos1 hrun
      · have hwa : writeAttempt cfg t bn src fp s =
            .doWrite { s with
              table := hashPut (scrubLoop cfg t s.table s.list).1 ⟨bn, 0, .data src⟩
              list := (scrubLoop cfg t s.table s.list).2.1 } := by
          unfold writeAttempt
          simp [ec_protect_scrub_expired_writtens, hg, hful]
        rw [hwa] at hrun
        have hget1 : hashGet (hashPut (scrubLoop cfg t s.table s.list).1
            ⟨bn, 0, .data src⟩) bn = some ⟨bn, 0, .data src⟩ :=
          hashGet_hashPut_self _ _
        have hnod2 : ((hashPut (scrubLoop cfg t s.table s.list).1
            ⟨bn, 0, .data src⟩).map BlockInfo.blockNum).Nodup :=
          keys_nodup_hashPut hnod1 hg
        simp only [faithfulWrite, afterInnerWrite, if_pos rfl, Option.some_inj,
          Prod.mk.injEq] at hrun
        obtain ⟨hr, hs, hst, hte⟩ := hrun
        subst hr hte
        refine ⟨rfl, ht, hst.symm, ?_, ?_⟩
        · rw [← hs]
          exact hashGet_setWritten_self hget1 t fp
        · rw [← hs]
          have hmapeq := map_blockNum_setWritten (hashPut (scrubLoop cfg t s.table s.list).1
            ⟨bn, 0, .data src⟩) bn t fp
          exact hmapeq ▸ hnod2
    · by_cases h0 : bi.timestamp = 0
      · have hwa : writeAttempt cfg t bn src fp s =
            .writingWait (t + cfg.minWriteDelay)
              { s with
                table := (scrubLoop cfg t s.table s.list).1
                list := (scrubLoop cfg t s.table s.list).2.1 } := by
          unfold writeAttempt
          simp [ec_protect_scrub_expired_writtens, hg, h0]
        rw [hwa] at hrun
        exact ih _ _ _ _ _ _ _ (Nat.lt_of_lt_of_le ht (Nat.le_add_right _ _)) hnod1 hpos1 hrun
      · by_cases hlt : t < bi.timestamp + cfg.minWriteDelay
        · have hwa : writeAttempt cfg t bn src fp s =
              .writtenWait (bi.timestamp + cfg.minWriteDelay)
                { s with
                  table := (scrubLoop cfg t s.table s.list).1
                  list := (scrubLoop cfg t s.table s.list).2.1 } := by
            unfold writeAttempt
            simp [ec_protect_scrub_expired_writtens, hg, h0, hlt]
          rw [hwa] at hrun
          have hw : 0 < bi.timestamp + cfg.minWriteDelay := by omega
          exact ih _ _ _ _ _ _ _ hw hnod1 hpos1 hrun
        · have hwa : writeAttempt cfg t bn src fp s =
              .doWrite { s with
                table := setWriting (scrubLoop cfg t s.table s.list).1 bn src
                list := hashRemove (scrubLoop cfg t s.table s.list).2.1 bn } := by
            unfold writeAttempt
            simp [ec_protect_scrub_expired_writtens, hg, h0, hlt]
          rw [hwa] at hrun
          have hget1 : hashGet (setWriting (scrubLoop cfg t s.table s.list).1 bn src) bn =
              some ⟨bn, 0, .data src⟩ :=
            hashGet_setWriting_self hg src
          have hnod2 : ((setWriting (scrubLoop cfg t s.table s.list).1 bn src).map
              BlockInfo.blockNum).Nodup := by
            rw [map_blockNum_setWriting]
            exact hnod1
          simp only [faithfulWrite, afterInnerWrite, if_pos rfl, Option.some_inj,
            Prod.mk.injEq] at hrun
          obtain ⟨hr, hs, hst, hte⟩ := hrun
          subst hr hte
          refine ⟨rfl, ht, hst.symm, ?_, ?_⟩
          · rw [← hs]
            exact hashGet_setWritten_self hget1 t fp
          · rw [← hs]
            have hmapeq := map_blockNum_setWritten
              (setWriting (scrubLoop cfg t s.table s.list).1 bn src) bn t fp
            exact hmapeq ▸ hnod2

/-- C1: the round-trip law.  For any block bn and any block-sized buffer S,
if a write of S through a backend that faithfully stores what it is given
and returns success completes (the single-threaded driver returns), it
returns success, and a subsequent read of bn - at any time, whether it hits
the WRITTEN record, its zero fast path, or misses after expiry - fills the
destination with S.  The md5Of hypothesis is the spec's guarantee that
genuine content hashing can never produce the all-zero sentinel. -/
theorem c1_round_trip (cfg : Config) (md5Of : Block → Digest) (bn : Nat) (S : Block)
    (s : ECState) (store : Store) (fuel t t₂ : Nat) (expect : Option Digest)
    (r : Nat) (s₂ : ECState) (store₂ : Store) (tEnd : Nat)
    (hbs : 0 < cfg.blockSize) (hlen : S.length = cfg.blockSize)
    (hmd5 : ∀ x, md5Of x ≠ zero_md5)
    (ht : 0 < t) (hkeys : (s.table.map BlockInfo.blockNum).Nodup)
    (hpos : ∀ e ∈ s.list, 0 < e.timestamp)
    (hrun : ec_protect_write_block cfg md5Of (faithfulWrite cfg) fuel t bn (some S) none s store =
      some (r, s₂, store₂, tEnd)) :
    r = 0 ∧
    (ec_protect_read_block cfg (faithfulRead store₂) t₂ bn expect s₂).2.1 = S := by
  have hbs' : ¬ cfg.blockSize = 0 := by omega
  rw [ec_protect_write_block, if_neg hbs'] at hrun
  have htake : S.take cfg.blockSize = S := by
    rw [← hlen]
    exact List.take_length S
  by_cases hzz : S.take cfg.blockSize = zeroBlock cfg
  · have hS : S = zeroBlock cfg := htake ▸ hzz
    simp only [prepWrite, if_pos hzz] at hrun
    obtain ⟨hr, hte, hst, hget, hnod⟩ :=
      writeLoop_faithful cfg bn none zero_md5 fuel t s store r s₂ store₂ tEnd ht hkeys hpos hrun
    refine ⟨hr, ?_⟩
    rcases scrubLoop_get_or cfg t₂ s₂.list hnod hget with hf | hf
    · have hne : ¬ tEnd = 0 := by omega
      have hread : (ec_protect_read_block cfg (faithfulRead store₂) t₂ bn expect s₂).2.1 =
          zeroBlock cfg := by
        simp [ec_protect_read_block, readBlockAux, ec_protect_scrub_expired_writtens,
          hf, hne, Payload.getMd5]
      rw [hread, hS]
    · have hread : (ec_protect_read_block cfg (faithfulRead store₂) t₂ bn expect s₂).2.1 =
          store₂ bn := by
        simp [ec_protect_read_block, readBlockAux, ec_protect_scrub_expired_writtens,
          hf, faithfulRead]
      rw [hread, hst, hS]
      simp
  · simp only [prepWrite, if_neg hzz] at hrun
    obtain ⟨hr, hte, hst, hget, hnod⟩ :=
      writeLoop_faithful cfg bn (some S) (md5Of (S.take cfg.blockSize)) fuel t s store
        r s₂ store₂ tEnd ht hkeys hpos hrun
    refine ⟨hr, ?_⟩
    rcases scrubLoop_get_or cfg t₂ s₂.list hnod hget with hf | hf
    · have hne : (BlockInfo.mk bn tEnd (.md5 (md5Of (S.take cfg.blockSize)))).timestamp ≠ 0 := by
        simp
        omega
      have hfpz : (BlockInfo.mk bn tEnd (.md5 (md5Of (S.take cfg.blockSize)))).payload.getMd5 ≠
          zero_md5 := by
        simpa [Payload.getMd5] using hmd5 (S.take cfg.blockSize)
      have haux := readBlockAux_written cfg t₂ bn expect s₂
        ⟨bn, tEnd, .md5 (md5Of (S.take cfg.blockSize))⟩ hf hne hfpz
      have hread : (ec_protect_read_block cfg (faithfulRead store₂) t₂ bn expect s₂).2.1 =
          store₂ bn := by
        simp [ec_protect_read_block, haux, faithfulRead]
      rw [hread, hst]
      simp
    · have hread : (ec_protect_read_block cfg (faithfulRead store₂) t₂ bn expect s₂).2.1 =
          store₂ bn := by
        simp [ec_protect_read_block, readBlockAux, ec_protect_scrub_expired_writtens,
          hf, faithfulRead]
      rw [hread, hst]
      simp

/-- C1 witness: from the empty state, writing [1,2,3,4] to block 3 at time
1 through the faithful backend succeeds at once (fuel 1) and a read at time
5 returns [1,2,3,4]. -/
theorem c1_round_trip_witness :
    (0 : Nat) = 0 ∧
    (ec_protect_read_block ⟨4, 2, 200, 100⟩
      (faithfulRead (fun b => if b = 3 then [1, 2, 3, 4] else [])) 5 3 none
      ⟨[⟨3, 1, .md5 (List.replicate 16 1)⟩], [⟨3, 1, .md5 (List.replicate 16 1)⟩],
        0, 0, 0, 0⟩).2.1 = [1, 2, 3, 4] := by
  exact c1_round_trip ⟨4, 2, 200, 100⟩ (fun _ => List.replicate 16 1) 3 [1, 2, 3, 4]
    startState (fun _ => []) 1 1 5 none 0
    ⟨[⟨3, 1, .md5 (List.replicate 16 1)⟩], [⟨3, 1, .md5 (List.replicate 16 1)⟩], 0, 0, 0, 0⟩
    (fun b => if b = 3 then [1, 2, 3, 4] else []) 1
    (by decide) (by decide)
    (fun x => by
      show List.replicate 16 1 ≠ zero_md5
      decide)
    (by decide) (by decide)
    (by intro e he; simp [startState] at he) (by rfl)

/-! Preservation of the structural invariant (C5). -/

/-- Helper: the scrub loop preserves the structural invariant on
(table, list) and disturbs no WRITING entry. -/
theorem scrubLoop_preserves (cfg : Config) (t : Nat) :
    ∀ (l tbl : List BlockInfo),
      (tbl.map BlockInfo.blockNum).Nodup →
      (l.map BlockInfo.blockNum).Nodup →
      (∀ e ∈ l, hashGet tbl e.blockNum = some e ∧ 0 < e.timestamp) →
      (∀ e ∈ tbl, 0 < e.timestamp → e ∈ l) →
      (((scrubLoop cfg t tbl l).1.map BlockInfo.blockNum).Nodup ∧
       ((scrubLoop cfg t tbl l).2.1.map BlockInfo.blockNum).Nodup) ∧
      (∀ e ∈ (scrubLoop cfg t tbl l).2.1,
        hashGet (scrubLoop cfg t tbl l).1 e.blockNum = some e ∧ 0 < e.timestamp) ∧
      (∀ e ∈ (scrubLoop cfg t tbl l).1, 0 < e.timestamp →
        e ∈ (scrubLoop cfg t tbl l).2.1) ∧
      (∀ bn e, hashGet tbl bn = some e → e.timestamp = 0 →
        hashGet (scrubLoop cfg t tbl l).1 bn = some e) := by
  intro l
  induction l with
  | nil =>
    intro tbl hkeys hlk hcoh hcomp
    refine ⟨⟨hkeys, by simp [scrubLoop]⟩, by simp [scrubLoop], ?_, ?_⟩
    · intro e he hts
      exact hcomp e he hts
    · intro bn e hget hts
      exact hget
  | cons x rest ih =>
    intro tbl hkeys hlk hcoh hcomp
    by_cases hx : x.timestamp + cfg.cacheTime ≤ t
    · have hxcoh := hcoh x (List.mem_cons_self x rest)
      have hxmem : x ∈ tbl := hashGet_mem hxcoh.1
      simp only [List.map_cons, List.nodup_cons] at hlk
      have hkeys' : ((hashRemove tbl x.blockNum).map BlockInfo.blockNum).Nodup :=
        keys_nodup_hashRemove hkeys
      have hgone : hashGet (hashRemove tbl x.blockNum) x.blockNum = none :=
        hashGet_hashRemove_self hkeys
      have hcoh' : ∀ e ∈ rest, hashGet (hashRemove tbl x.blockNum) e.blockNum = some e ∧
          0 < e.timestamp := by
        intro e he
        have hne : e.blockNum ≠ x.blockNum := by
          intro heq
          exact hlk.1 (heq ▸ List.mem_map_of_mem BlockInfo.blockNum he)
        have h0 := hcoh e (List.mem_cons_of_mem x he)
        refine ⟨?_, h0.2⟩
        rw [hashGet_hashRemove_ne (fun hh => hne hh.symm)]
        exact h0.1
      have hcomp' : ∀ e ∈ hashRemove tbl x.blockNum, 0 < e.timestamp → e ∈ rest := by
        intro e he hts
        have hmem : e ∈ tbl := mem_of_mem_hashRemove he
        have hA := hcomp e hmem hts
        rcases List.mem_cons.mp hA with rfl | hr
        · exfalso
          have : e.blockNum ≠ e.blockNum := (hashGet_eq_none.mp hgone) e he
          exact this rfl
        · exact hr
      have hout := ih (hashRemove tbl x.blockNum) hkeys' hlk.2 hcoh' hcomp'
      have hstep : scrubLoop cfg t tbl (x :: rest) =
          ((scrubLoop cfg t (hashRemove tbl x.blockNum) rest).1,
           (scrubLoop cfg t (hashRemove tbl x.blockNum) rest).2.1,
           (scrubLoop cfg t (hashRemove tbl x.blockNum) rest).2.2 + 1) := by
        simp [scrubLoop, hx]
      rw [hstep]
      refine ⟨hout.1, hout.2.1, hout.2.2.1, ?_⟩
      intro bn e hget hts
      have hne : x.blockNum ≠ bn := by
        intro heq
        rw [heq] at hxcoh
        rw [hxcoh.1] at hget
        cases hget
        omega
      exact hout.2.2.2 bn e (by rw [hashGet_hashRemove_ne hne]; exact hget) hts
    · have hstep : scrubLoop cfg t tbl (x :: rest) = (tbl, x :: rest, 0) := by
        simp [scrubLoop, hx]
      rw [hstep]
      exact ⟨⟨hkeys, hlk⟩, hcoh, hcomp, fun bn e hget hts => hget⟩

/-- Helper: the locked read section's list is the scrubbed list. -/
theorem readBlockAux_list (cfg : Config) (t bn : Nat) (expect : Option Digest)
    (s : ECState) : (readBlockAux cfg t bn expect s).state.list =
      (scrubLoop cfg t s.table s.list).2.1 := by
  unfold readBlockAux
  simp only [ec_protect_scrub_expired_writtens]
  rcases hg : hashGet (scrubLoop cfg t s.table s.list).1 bn with _ | bi
  · simp [hg]
  · by_cases h0 : bi.timestamp = 0
    · simp [hg, h0]
    · by_cases hz : bi.payload.getMd5 = zero_md5
      · simp [hg, h0, hz]
      · simp [hg, h0, hz]

/-- Helper: a whole-system state satisfying the invariant still satisfies
it after a scrub at a time past the clock. -/
theorem sysInv_scrub (cfg : Config) (sys : Sys) (t : Nat)
    (hct : sys.clock ≤ t) (h : SysInv sys) :
    SysInv ⟨(ec_protect_scrub_expired_writtens cfg sys.ec t).1, sys.inflight, t⟩ := by
  obtain ⟨⟨coh, complete, keys, listKeys, sorted⟩, wact, iwr, inod, tsc⟩ := h
  have hcoh0 : ∀ e ∈ sys.ec.list, hashGet sys.ec.table e.blockNum = some e ∧
      0 < e.timestamp := coh
  have hout := scrubLoop_preserves cfg t sys.ec.list sys.ec.table keys listKeys hcoh0 complete
  have hsorted : (scrubLoop cfg t sys.ec.table sys.ec.list).2.1.Pairwise
      (fun a b => a.timestamp ≤ b.timestamp) := by
    rw [scrubLoop_list]
    exact sorted.sublist (List.dropWhile_sublist (expiredB cfg t))
  refine ⟨⟨?_, ?_, hout.1.1, hout.1.2, ?_⟩, ?_, ?_, inod, ?_⟩
  · intro e he
    exact hout.2.1 e he
  · intro e he hts
    exact hout.2.2.1 e he hts
  · exact hsorted
  · intro e he hts
    have hmem : e ∈ sys.ec.table := (scrubLoop_table_sublist cfg t _ _).mem he
    exact wact e hmem hts
  · intro bn hbn
    obtain ⟨e, hget, hts⟩ := iwr bn hbn
    exact ⟨e, hout.2.2.2 bn e hget hts, hts⟩
  · intro e he
    have hmem : e ∈ sys.ec.list := mem_of_mem_scrubLoop_list he
    exact le_trans (tsc e hmem) hct

theorem nodup_append_singleton {α : Type} {l : List α} {a : α}
    (h : l.Nodup) (ha : a ∉ l) : (l ++ [a]).Nodup := by
  rw [List.nodup_append]
  refine ⟨h, List.nodup_singleton a, ?_⟩
  intro x hx hmem
  simp at hmem
  subst hmem
  exact ha hx

/-- Helper: a write pass that does not reach writeit leaves the scrubbed
state untouched. -/
theorem writeAttempt_sleep_state (cfg : Config) (t bn : Nat) (src : Option Block)
    (fp : Digest) (s : ECState) :
    (writeAttempt cfg t bn src fp s).isDoWrite = true ∨
    (writeAttempt cfg t bn src fp s).state =
      { s with
        table := (scrubLoop cfg t s.table s.list).1
        list := (scrubLoop cfg t s.table s.list).2.1 } := by
  unfold writeAttempt
  simp only [ec_protect_scrub_expired_writtens]
  rcases hg : hashGet (scrubLoop cfg t s.table s.list).1 bn with _ | bi
  · by_cases hful : cfg.cacheSize ≤ (scrubLoop cfg t s.table s.list).1.length
    · rcases hh : (scrubLoop cfg t s.table s.list).2.1.head? with _ | h <;>
        simp [hg, hful, hh, IterResult.state]
    · simp [hg, hful, IterResult.isDoWrite]
  · by_cases h0 : bi.timestamp = 0
    · simp [hg, h0, IterResult.state]
    · by_cases hlt : t < bi.timestamp + cfg.minWriteDelay
      · simp [hg, h0, hlt, IterResult.state]
      · simp [hg, h0, hlt, IterResult.isDoWrite]

/-- Helper: inversion of a write pass that reaches writeit - either the
CLEAN insert under the capacity guard, or the WRITTEN demotion after the
minimum delay. -/
theorem writeAttempt_doWrite_inv (cfg : Config) (t bn : Nat) (src : Option Block)
    (fp : Digest) (s : ECState) (s₁ : ECState)
    (hw : writeAttempt cfg t bn src fp s = .doWrite s₁) :
    (hashGet (scrubLoop cfg t s.table s.list).1 bn = none ∧
      (scrubLoop cfg t s.table s.list).1.length < cfg.cacheSize ∧
      s₁ = { s with
        table := hashPut (scrubLoop cfg t s.table s.list).1 ⟨bn, 0, .data src⟩
        list := (scrubLoop cfg t s.table s.list).2.1 }) ∨
    (∃ bi, hashGet (scrubLoop cfg t s.table s.list).1 bn = some bi ∧
      bi.timestamp ≠ 0 ∧ ¬ t < bi.timestamp + cfg.minWriteDelay ∧
      s₁ = { s with
        table := setWriting (scrubLoop cfg t s.table s.list).1 bn src
        list := hashRemove (scrubLoop cfg t s.table s.list).2.1 bn }) := by
  rcases hg : hashGet (scrubLoop cfg t s.table s.list).1 bn with _ | bi
  · by_cases hful : cfg.cacheSize ≤ (scrubLoop cfg t s.table s.list).1.length
    · rcases hh : (scrubLoop cfg t s.table s.list).2.1.head? with _ | h
      · have hwa : writeAttempt cfg t bn src fp s =
            .fullWait none { s with
              table := (scrubLoop cfg t s.table s.list).1
              list := (scrubLoop cfg t s.table s.list).2.1 } := by
          unfold writeAttempt
          simp [ec_protect_scrub_expired_writtens, hg, hful, hh]
        rw [hwa] at hw
        simp at hw
      · have hwa : writeAttempt cfg t bn src fp s =
            .fullWait (some (h.timestamp + cfg.cacheTime)) { s with
              table := (scrubLoop cfg t s.table s.list).1
              list := (scrubLoop cfg t s.table s.list).2.1 } := by
          unfold writeAttempt
          simp [ec_protect_scrub_expired_writtens, hg, hful, hh]
        rw [hwa] at hw
        simp at hw
    · have hwa : writeAttempt cfg t bn src fp s =
          .doWrite { s with
            table := hashPut (scrubLoop cfg t s.table s.list).1 ⟨bn, 0, .data src⟩
            list := (scrubLoop cfg t s.table s.list).2.1 } := by
        unfold writeAttempt
        simp [ec_protect_scrub_expired_writtens, hg, hful]
      rw [hwa] at hw
      simp only [IterResult.doWrite.injEq] at hw
      exact Or.inl ⟨rfl, by omega, hw.symm⟩
  · by_cases h0 : bi.timestamp = 0
    · have hwa : writeAttempt cfg t bn src fp s =
          .writingWait (t + cfg.minWriteDelay) { s with
            table := (scrubLoop cfg t s.table s.list).1
            list := (scrubLoop cfg t s.table s.list).2.1 } := by
        unfold writeAttempt
        simp [ec_protect_scrub_expired_writtens, hg, h0]
      rw [hwa] at hw
      simp at hw
    · by_cases hlt : t < bi.timestamp + cfg.minWriteDelay
      · have hwa : writeAttempt cfg t bn src fp s =
            .writtenWait (bi.timestamp + cfg.minWriteDelay) { s with
              table := (scrubLoop cfg t s.table s.list).1
              list := (scrubLoop cfg t s.table s.list).2.1 } := by
          unfold writeAttempt
          simp [ec_protect_scrub_expired_writtens, hg, h0, hlt]
        rw [hwa] at hw
        simp at hw
      · have hwa : writeAttempt cfg t bn src fp s =
            .doWrite { s with
              table := setWriting (scrubLoop cfg t s.table s.list).1 bn src
              list := hashRemove (scrubLoop cfg t s.table s.list).2.1 bn } := by
          unfold writeAttempt
          simp [ec_protect_scrub_expired_writtens, hg, h0, hlt]
        rw [hwa] at hw
        simp only [IterResult.doWrite.injEq] at hw
        exact Or.inr ⟨bi, rfl, h0, hlt, hw.symm⟩

/-- Helper: the invariant only depends on the table, the list, the
in-flight set and the clock. -/
theorem sysInv_congr {a b : Sys} (htab : b.ec.table = a.ec.table)
    (hlist : b.ec.list = a.ec.list) (hinf : b.inflight = a.inflight)
    (hclock : b.clock = a.clock) (h : SysInv a) : SysInv b := by
  obtain ⟨⟨coh, comp, keys, lkeys, sor⟩, wact, iwr, inod, tsc⟩ := h
  refine ⟨⟨?_, ?_, ?_, ?_, ?_⟩, ?_, ?_, ?_, ?_⟩
  · rw [hlist, htab]
    exact coh
  · rw [htab, hlist]
    exact comp
  · rw [htab]
    exact keys
  · rw [hlist]
    exact lkeys
  · rw [hlist]
    exact sor
  · rw [htab, hinf]
    exact wact
  · rw [hinf, htab]
    exact iwr
  · rw [hinf]
    exact inod
  · rw [hlist, hclock]
    exact tsc

/-- Helper: sysInv_scrub restated on the literal record update. -/
theorem sysInv_scrubState (cfg : Config) (sys : Sys) (t : Nat)
    (hct : sys.clock ≤ t) (h : SysInv sys) :
    SysInv ⟨{ sys.ec with
        table := (scrubLoop cfg t sys.ec.table sys.ec.list).1
        list := (scrubLoop cfg t sys.ec.table sys.ec.list).2.1 }, sys.inflight, t⟩ :=
  sysInv_scrub cfg sys t hct h

/-- Helper: every valid step preserves the strengthened invariant. -/
theorem sysInv_step (cfg : Config) (sys : Sys) (op : Op)
    (hv : validOp sys op = true) (h : SysInv sys) : SysInv (step cfg sys op) := by
  rcases op with ⟨t, bn, expect⟩ | ⟨t, bn, src, fp⟩ | ⟨t, bn, r, fp⟩ | t
  · -- readOp: the locked read section scrubs and updates only stats
    simp only [validOp, Bool.and_eq_true, decide_eq_true_eq] at hv
    refine sysInv_congr ?_ ?_ ?_ ?_ (sysInv_scrubState cfg sys t hv.1 h)
    · exact readBlockAux_table cfg t bn expect sys.ec
    · exact readBlockAux_list cfg t bn expect sys.ec
    · rfl
    · rfl
  · -- writeTry: one pass of the again loop
    simp only [validOp, Bool.and_eq_true, decide_eq_true_eq] at hv
    rcases hw : writeAttempt cfg t bn src fp sys.ec with ⟨w, s₁⟩ | ⟨w, s₁⟩ | ⟨w, s₁⟩ | s₁
    case fullWait | writingWait | writtenWait =>
      have hstep : step cfg sys (.writeTry t bn src fp) = ⟨s₁, sys.inflight, t⟩ := by
        simp [step, hw]
      rw [hstep]
      rcases writeAttempt_sleep_state cfg t bn src fp sys.ec with hdw | hst
      · rw [hw] at hdw
        simp [IterResult.isDoWrite] at hdw
      · rw [hw] at hst
        simp only [IterResult.state] at hst
        rw [hst]
        exact sysInv_scrubState cfg sys t hv.1 h
    case doWrite =>
      have hstep : step cfg sys (.writeTry t bn src fp) = ⟨s₁, bn :: sys.inflight, t⟩ := by
        simp [step, hw]
      rw [hstep]
      have hbase := sysInv_scrub cfg sys t hv.1 h
      obtain ⟨⟨coh, comp, keys, lkeys, sor⟩, wact, iwr, inod, tsc⟩ := hbase
      simp only [ec_protect_scrub_expired_writtens] at coh comp keys lkeys sor wact iwr inod tsc
      rcases writeAttempt_doWrite_inv cfg t bn src fp sys.ec s₁ hw with
        ⟨hgT, hroom, hs₁⟩ | ⟨bi, hgT, hts0, hle, hs₁⟩
      · -- CLEAN insert
        subst hs₁
        have hfresh : ∀ e ∈ (scrubLoop cfg t sys.ec.table sys.ec.list).1,
            e.blockNum ≠ bn := hashGet_eq_none.mp hgT
        refine ⟨⟨?_, ?_, ?_, lkeys, sor⟩, ?_, ?_, ?_, tsc⟩
        · intro e he
          have h0 := coh e he
          have hne : (BlockInfo.mk bn 0 (.data src)).blockNum ≠ e.blockNum := by
            intro heq
            exact hfresh e (hashGet_mem h0.1) (by simpa using heq.symm)
          refine ⟨?_, h0.2⟩
          show hashGet (hashPut _ _) e.blockNum = some e
          rw [hashPut, hashGet_cons_ne hne]
          exact h0.1
        · intro x hx hts
          rcases List.mem_cons.mp hx with rfl | hr
          · simp at hts
          · exact comp x hr hts
        · exact keys_nodup_hashPut keys hgT
        · intro x hx hts
          rcases List.mem_cons.mp hx with rfl | hr
          · exact List.mem_cons_self _ _
          · exact List.mem_cons_of_mem bn (wact x hr hts)
        · intro bn' hbn'
          rcases List.mem_cons.mp hbn' with rfl | hr
          · exact ⟨⟨bn', 0, .data src⟩, hashGet_hashPut_self _ _, rfl⟩
          · obtain ⟨e, hget, hts⟩ := iwr bn' hr
            have hne : (BlockInfo.mk bn 0 (.data src)).blockNum ≠ bn' := by
              intro heq
              simp only at heq
              rw [heq] at hgT
              rw [hgT] at hget
              cases hget
            refine ⟨e, ?_, hts⟩
            show hashGet (hashPut _ _) bn' = some e
            rw [hashPut, hashGet_cons_ne hne]
            exact hget
        · refine List.nodup_cons.mpr ⟨?_, inod⟩
          intro hmem
          obtain ⟨e, hget, hts⟩ := iwr bn hmem
          rw [hgT] at hget
          cases hget
      · -- WRITTEN demotion
        subst hs₁
        have hbibn : bi.blockNum = bn := hashGet_key hgT
        have hbiT : bi ∈ (scrubLoop cfg t sys.ec.table sys.ec.list).1 := hashGet_mem hgT
        have hbiL : bi ∈ (scrubLoop cfg t sys.ec.table sys.ec.list).2.1 :=
          comp bi hbiT (by omega)
        have hLnone : hashGet (hashRemove (scrubLoop cfg t sys.ec.table sys.ec.list).2.1 bn)
            bn = none := hashGet_hashRemove_self lkeys
        have hkeysT' : ((setWriting (scrubLoop cfg t sys.ec.table sys.ec.list).1 bn src).map
            BlockInfo.blockNum).Nodup := by
          rw [map_blockNum_setWriting]
          exact keys
        have hgetT' : hashGet (setWriting (scrubLoop cfg t sys.ec.table sys.ec.list).1 bn src)
            bn = some ⟨bn, 0, .data src⟩ := hashGet_setWriting_self hgT src
        have hnotinf : bn ∉ sys.inflight := by
          intro hmem
          obtain ⟨e, hget, hts⟩ := iwr bn hmem
          rw [hgT] at hget
          cases hget
          omega
        refine ⟨⟨?_, ?_, hkeysT', ?_, ?_⟩, ?_, ?_, ?_, ?_⟩
        · intro e he
          have heL : e ∈ (scrubLoop cfg t sys.ec.table sys.ec.list).2.1 :=
            mem_of_mem_hashRemove he
          have h0 := coh e heL
          have hne : e.blockNum ≠ bn := (hashGet_eq_none.mp hLnone) e he
          refine ⟨?_, h0.2⟩
          show hashGet (setWriting _ bn src) e.blockNum = some e
          rw [hashGet_setWriting_ne hne]
          exact h0.1
        · intro x hx hts
          have hgx := (mem_iff_hashGet hkeysT').mp hx
          by_cases hxbn : x.blockNum = bn
          · rw [hxbn, hgetT'] at hgx
            cases hgx
            simp at hts
          · rw [hashGet_setWriting_ne hxbn] at hgx
            have hxT : x ∈ (scrubLoop cfg t sys.ec.table sys.ec.list).1 := hashGet_mem hgx
            exact mem_hashRemove_of_ne (comp x hxT hts) hxbn
        · exact keys_nodup_hashRemove lkeys
        · exact sor.sublist (hashRemove_sublist _ bn)
        · intro x hx hts
          have hgx := (mem_iff_hashGet hkeysT').mp hx
          by_cases hxbn : x.blockNum = bn
          · rw [hxbn]
            exact List.mem_cons_self _ _
          · rw [hashGet_setWriting_ne hxbn] at hgx
            have hxT : x ∈ (scrubLoop cfg t sys.ec.table sys.ec.list).1 := hashGet_mem hgx
            exact List.mem_cons_of_mem bn (wact x hxT hts)
        · intro bn' hbn'
          rcases List.mem_cons.mp hbn' with rfl | hr
          · exact ⟨⟨bn', 0, .data src⟩, hgetT', rfl⟩
          · obtain ⟨e, hget, hts⟩ := iwr bn' hr
            have hne : bn' ≠ bn := by
              intro heq
              rw [heq, hgT] at hget
              cases hget
              omega
            refine ⟨e, ?_, hts⟩
            show hashGet (setWriting _ bn src) bn' = some e
            rw [hashGet_setWriting_ne hne]
            exact hget
        · exact List.nodup_cons.mpr ⟨hnotinf, inod⟩
        · intro e he
          exact tsc e (mem_of_mem_hashRemove he)
  · -- writeDone: the relocked completion of a backend write
    simp only [validOp, Bool.and_eq_true, decide_eq_true_eq] at hv
    obtain ⟨⟨hct, hpos⟩, hinf⟩ := hv
    obtain ⟨⟨coh, comp, keys, lkeys, sor⟩, wact, iwr, inod, tsc⟩ := h
    obtain ⟨e₀, hget₀, hts₀⟩ := iwr bn hinf
    have hbnL : ∀ e ∈ sys.ec.list, e.blockNum ≠ bn := by
      intro e he heq
      have h0 := coh e he
      rw [heq, hget₀] at h0
      rcases h0 with ⟨heq0, hts⟩
      cases heq0
      omega
    by_cases hr : r = 0
    · -- success: record moves to WRITTEN at time t, appended to the tail
      subst hr
      have hstep : step cfg sys (.writeDone t bn 0 fp) =
          ⟨{ sys.ec with
              table := setWritten sys.ec.table bn t fp
              list := sys.ec.list ++ [⟨bn, t, .md5 fp⟩] },
            sys.inflight.erase bn, t⟩ := by
        simp [step, afterInnerWrite]
      rw [hstep]
      have hkeysT' : ((setWritten sys.ec.table bn t fp).map BlockInfo.blockNum).Nodup := by
        rw [map_blockNum_setWritten]
        exact keys
      have hgetT' : hashGet (setWritten sys.ec.table bn t fp) bn =
          some ⟨bn, t, .md5 fp⟩ := hashGet_setWritten_self hget₀ t fp
      refine ⟨⟨?_, ?_, hkeysT', ?_, ?_⟩, ?_, ?_, inod.erase bn, ?_⟩
      · intro e he
        rcases List.mem_append.mp he with hl | hrr
        · have h0 := coh e hl
          refine ⟨?_, h0.2⟩
          show hashGet (setWritten _ bn t fp) e.blockNum = some e
          rw [hashGet_setWritten_ne (hbnL e hl)]
          exact h0.1
        · simp only [List.mem_singleton] at hrr
          subst hrr
          exact ⟨hgetT', hpos⟩
      · intro x hx hts
        have hgx := (mem_iff_hashGet hkeysT').mp hx
        by_cases hxbn : x.blockNum = bn
        · rw [hxbn, hgetT'] at hgx
          cases hgx
          exact List.mem_append_right _ (List.mem_singleton.mpr rfl)
        · rw [hashGet_setWritten_ne hxbn] at hgx
          exact List.mem_append_left _ (comp x (hashGet_mem hgx) hts)
      · rw [List.map_append]
        refine nodup_append_singleton lkeys ?_
        intro hmem
        rcases List.mem_map.mp hmem with ⟨e, he, heq⟩
        exact hbnL e he heq
      · rw [List.pairwise_append]
        refine ⟨sor, List.pairwise_singleton _ _, ?_⟩
        intro a ha b hb
        simp only [List.mem_singleton] at hb
        subst hb
        exact le_trans (tsc a ha) hct
      · intro x hx hts
        have hgx := (mem_iff_hashGet hkeysT').mp hx
        by_cases hxbn : x.blockNum = bn
        · rw [hxbn, hgetT'] at hgx
          cases hgx
          simp at hts
          omega
        · rw [hashGet_setWritten_ne hxbn] at hgx
          have hxin := wact x (hashGet_mem hgx) hts
          exact (List.mem_erase_of_ne hxbn).mpr hxin
      · intro bn' hbn'
        have hmem := List.mem_of_mem_erase hbn'
        have hne : bn' ≠ bn := ((List.Nodup.mem_erase_iff inod).mp hbn').1
        obtain ⟨e, hget, hts⟩ := iwr bn' hmem
        refine ⟨e, ?_, hts⟩
        show hashGet (setWritten _ bn t fp) bn' = some e
        rw [hashGet_setWritten_ne hne]
        exact hget
      · intro e he
        rcases List.mem_append.mp he with hl | hrr
        · exact le_trans (tsc e hl) hct
        · simp only [List.mem_singleton] at hrr
          subst hrr
          exact le_refl t
    · -- failure: the provisional WRITING record is removed
      have hstep : step cfg sys (.writeDone t bn r fp) =
          ⟨{ sys.ec with table := hashRemove sys.ec.table bn },
            sys.inflight.erase bn, t⟩ := by
        simp [step, afterInnerWrite, hr]
      rw [hstep]
      have hTnone : hashGet (hashRemove sys.ec.table bn) bn = none :=
        hashGet_hashRemove_self keys
      refine ⟨⟨?_, ?_, keys_nodup_hashRemove keys, lkeys, sor⟩, ?_, ?_,
        inod.erase bn, ?_⟩
      · intro e he
        have h0 := coh e he
        refine ⟨?_, h0.2⟩
        show hashGet (hashRemove _ bn) e.blockNum = some e
        rw [hashGet_hashRemove_ne (fun hh => hbnL e he hh.symm)]
        exact h0.1
      · intro x hx hts
        exact comp x (mem_of_mem_hashRemove hx) hts
      · intro x hx hts
        have hne : x.blockNum ≠ bn := (hashGet_eq_none.mp hTnone) x hx
        exact (List.mem_erase_of_ne hne).mpr (wact x (mem_of_mem_hashRemove hx) hts)
      · intro bn' hbn'
        have hmem := List.mem_of_mem_erase hbn'
        have hne : bn' ≠ bn := ((List.Nodup.mem_erase_iff inod).mp hbn').1
        obtain ⟨e, hget, hts⟩ := iwr bn' hmem
        refine ⟨e, ?_, hts⟩
        show hashGet (hashRemove _ bn) bn' = some e
        rw [hashGet_hashRemove_ne (fun hh => hne hh.symm)]
        exact hget
      · intro e he
        exact le_trans (tsc e he) hct
  · -- scrubOp: the periodic sweeper
    simp only [validOp, Bool.and_eq_true, decide_eq_true_eq] at hv
    exact sysInv_scrub cfg sys t hv.1 h

/-- Helper: the invariant holds along any valid schedule. -/
theorem sysInv_run (cfg : Config) :
    ∀ (ops : List Op) (sys : Sys), SysInv sys → validTrace cfg sys ops = true →
      SysInv (runOps cfg sys ops)
  | [], _, h, _ => h
  | op :: ops, sys, h, hv => by
    rw [validTrace] at hv
    simp only [Bool.and_eq_true] at hv
    exact sysInv_run cfg ops (step cfg sys op) (sysInv_step cfg sys op hv.1 h) hv.2

/-- Helper: the state right after creation satisfies the invariant. -/
theorem sysInv_start : SysInv startSys := by
  refine ⟨⟨?_, ?_, ?_, ?_, ?_⟩, ?_, ?_, ?_, ?_⟩ <;> simp [startSys, startState]

/-- C5: in every state reachable from creation by a valid schedule of
mutex-held steps (each stamped with a monotone positive clock, completions
matching writes actually in flight), the structural invariant holds: the
expiry list contains exactly the records with positive timestamp, each
coherent with its unique hash table entry, block numbers appear at most
once in the index, and list timestamps are non-decreasing from head to
tail. -/
theorem c5_structural_invariant (cfg : Config) (ops : List Op)
    (hv : validTrace cfg startSys ops = true) :
    ClaimInv (runOps cfg startSys ops).ec :=
  (sysInv_run cfg ops startSys sysInv_start hv).inv

/-- C5 witness: a six-step schedule - two full writes, an overlapping-state
read and a late sweep - is valid and its final state satisfies the
invariant. -/
theorem c5_structural_invariant_witness :
    validTrace ⟨4, 2, 200, 100⟩ startSys
      [.writeTry 1 5 (some [1, 2, 3, 4]) zero_md5,
       .writeDone 2 5 0 zero_md5,
       .writeTry 3 8 none zero_md5,
       .writeDone 4 8 0 zero_md5,
       .readOp 5 5 none,
       .scrubOp 300] = true ∧
    ClaimInv (runOps ⟨4, 2, 200, 100⟩ startSys
      [.writeTry 1 5 (some [1, 2, 3, 4]) zero_md5,
       .writeDone 2 5 0 zero_md5,
       .writeTry 3 8 none zero_md5,
       .writeDone 4 8 0 zero_md5,
       .readOp 5 5 none,
       .scrubOp 300]).ec :=
  ⟨by decide, c5_structural_invariant ⟨4, 2, 200, 100⟩
    [.writeTry 1 5 (some [1, 2, 3, 4]) zero_md5,
     .writeDone 2 5 0 zero_md5,
     .writeTry 3 8 none zero_md5,
     .writeDone 4 8 0 zero_md5,
     .readOp 5 5 none,
     .scrubOp 300] (by decide)⟩

end ECProtect
